import Mathlib

/-!
Verification of the rustneat core against its specification.

The development shallowly embeds the Rust sources:
  - src/nn/ctrnn.rs   (`Ctrnn::activate_nn`, `sigmoid`)
  - src/nn/mod.rs     (`NeuralNetwork`: `with_neurons`, `add_connection`,
                       `mutate` and its sub-mutations, `mate`/`reproduce`,
                       `distance`, `make_network`/`get_weights`)

Modelling conventions:
  - `IndexMap` (the indexmap crate) is modelled as an association list
    `List (key × value)`; `insert` updates the value in place keeping the
    position, otherwise appends; `remove` is a swap-remove (the last entry
    is moved into the removed slot), matching indexmap 1.x where `remove`
    is an alias for `swap_remove`.
  - IEEE-754 doubles are idealised: `f64` values become `ℚ`, and where the
    transcendental `exp` is needed the development is parametric in a field
    `K` and a function `e : K → K` standing for `x ↦ exp x`.
  - Randomness is made explicit: every `rand::random` draw becomes an
    oracle argument (a `Bool` for each probability comparison, a `ℕ` for
    each raw `usize`, a `ℚ` for each `Normal` sample), so theorems
    quantified over oracles cover every random outcome.
  - Rust panics (assertion failures, `%` by zero, `unwrap` of `None`)
    become `Option.none`.
  - The files src/nn/gene.rs and the `NeatParams` struct are referenced by
    the sources but absent from the repository snapshot; they are modelled
    from the specification and marked `Modelled from the spec:` below.
-/

/-! ## Association-list model of `indexmap::IndexMap` -/

/-- Keys of the map in iteration (insertion) order, as `IndexMap::keys`. -/
def keysOf {α β : Type} (m : List (α × β)) : List α := m.map Prod.fst

/-- Lookup by key, as `IndexMap::get`. -/
def getVal {α β : Type} [DecidableEq α] : List (α × β) → α → Option β
  | [], _ => none
  | (k, v) :: rest, a => if k = a then some v else getVal rest a

/-- Position of a key, as the index part of `IndexMap::get_full`. -/
def idxOfKey {α β : Type} [DecidableEq α] : List (α × β) → α → Option ℕ
  | [], _ => none
  | (k, _) :: rest, a => if k = a then some 0 else (idxOfKey rest a).map (fun i => i + 1)

/-- Insertion as `IndexMap::insert`: an existing key keeps its position and
gets the new value, a new key is appended at the end. -/
def insertIM {α β : Type} [DecidableEq α] : List (α × β) → α → β → List (α × β)
  | [], a, b => [(a, b)]
  | (k, v) :: rest, a, b => if k = a then (k, b) :: rest else (k, v) :: insertIM rest a b

/-- Swap-removal of the entry at index `i`, as `IndexMap::swap_remove`: the
last entry is moved into slot `i` and the length shrinks by one. -/
def swapRemoveIdx {γ : Type} (l : List γ) (i : ℕ) : List γ :=
  match l.getLast? with
  | none => l
  | some x => (l.set i x).dropLast

/-- Removal by key, as `IndexMap::remove` (= `swap_remove` in indexmap 1.x). -/
def swapRemoveKey {α β : Type} [DecidableEq α] (m : List (α × β)) (a : α) : List (α × β) :=
  match idxOfKey m a with
  | none => m
  | some i => swapRemoveIdx m i

/-! ## Gene types (src/nn/gene.rs, absent from the snapshot) -/

/-- Modelled from the spec: `NeuronGene` from the missing src/nn/gene.rs.
Spec §3: "NeuronGene: (id: NeuronId, bias: real)"; `NeuronGene::new(bias, id)`
is used as constructor in src/nn/mod.rs. -/
structure NeuronGene where
  bias : ℚ
  id : ℕ
deriving DecidableEq, Repr

/-- Modelled from the spec: `ConnectionGene` from the missing src/nn/gene.rs.
Spec §3: "ConnectionGene: (id: ConnectionId, weight: real)" with
ConnectionId the ordered pair (in_neuron, out_neuron);
`ConnectionGene::new(in, out, weight)` is its constructor. -/
structure ConnectionGene where
  in_neuron : ℕ
  out_neuron : ℕ
  weight : ℚ
deriving DecidableEq, Repr

abbrev NeuronId := ℕ
abbrev ConnectionId := ℕ × ℕ

/-- Modelled from the spec: `Gene::id` for connection genes — the ordered
pair of endpoints. -/
def ConnectionGene.cid (c : ConnectionGene) : ConnectionId := (c.in_neuron, c.out_neuron)

/-- Modelled from the spec: gene distance of neuron genes, |bias₁ − bias₂|. -/
def NeuronGene.distance (a b : NeuronGene) : ℚ := |a.bias - b.bias|

/-- Modelled from the spec: gene distance of connection genes, |weight₁ − weight₂|. -/
def ConnectionGene.distance (a b : ConnectionGene) : ℚ := |a.weight - b.weight|

/-- Modelled from the spec: the fields of `NeatParams` (spec §4.6) that the
embedded operations consume.  The probability fields (`*_pr`) are consumed
in the sources only through comparisons `rand::random::<f64>() < pr`; the
embedding replaces each such comparison by its Boolean outcome supplied by
the oracle, so only the structural and distance parameters appear as data. -/
structure NeatParams where
  n_inputs : ℕ
  n_outputs : ℕ
  distance_disjoint_coef : ℚ
  distance_weight_coef : ℚ
  bias_mutate_var : ℚ
  weight_mutate_var : ℚ
deriving DecidableEq, Repr

/-! ## The genome (src/nn/mod.rs) -/

/-- `NeuralNetwork` from src/nn/mod.rs: two insertion-ordered maps. -/
structure NeuralNetwork where
  connections : List (ConnectionId × ConnectionGene)
  neurons : List (NeuronId × NeuronGene)
deriving DecidableEq, Repr

/-- `NeuralNetwork::with_neurons(n)`: neurons numbered `0..n`, bias 0, no
connections. -/
def with_neurons (n : ℕ) : NeuralNetwork :=
  { neurons := (List.range n).map (fun i => (i, ⟨0, i⟩)), connections := [] }

/-- In-place weight overwrite: the effect of `get_mut(&id)` followed by
`gene.weight = weight` in `add_connection`. -/
def setWeightAt : List (ConnectionId × ConnectionGene) → ConnectionId → ℚ →
    List (ConnectionId × ConnectionGene)
  | [], _, _ => []
  | (k, c) :: rest, key, w =>
    if k = key then (k, { c with weight := w }) :: rest else (k, c) :: setWeightAt rest key w

/-- `NeuralNetwork::add_connection`. `none` models the panics of the three
`assert!`s (empty neuron set, unknown in-neuron, unknown out-neuron). -/
def add_connection (g : NeuralNetwork) (in_n out_n : ℕ) (w : ℚ) : Option NeuralNetwork :=
  if g.neurons.length = 0 then none
  else if in_n ∈ keysOf g.neurons then
    if out_n ∈ keysOf g.neurons then
      some { g with connections :=
        if (in_n, out_n) ∈ keysOf g.connections then
          setWeightAt g.connections (in_n, out_n) w
        else
          g.connections ++ [((in_n, out_n), ⟨in_n, out_n, w⟩)] }
    else none
  else none

/-! ## The CTRNN engine (src/nn/ctrnn.rs) -/

section CtrnnModel

variable {K : Type} [Field K]

/-- `Ctrnn::sigmoid`: `1.0 / (1.0 + (-y).exp())`, with `e` standing for the
exponential. -/
def sigmoid (e : K → K) (y : K) : K := 1 / (1 + e (-y))

/-- Matrix–column-vector product, as rulinalg `&wij * activations`. -/
def matVecMul {n : ℕ} (w : Fin n → Fin n → K) (v : Fin n → K) : Fin n → K :=
  fun j => ∑ k, w j k * v k

/-- `tau.apply(&(|x| 1.0 / x)) * self.delta_t` from `activate_nn`. -/
def delta_t_tauV {n : ℕ} (tau : Fin n → K) (delta_t : K) : Fin n → K :=
  fun j => (1 / tau j) * delta_t

/-- The loop body of `Ctrnn::activate_nn`:
`y = &y + delta_t_tau.elemul(&((&wij * activations) - &y + &i))` with
`activations = (&y - &theta).apply(&Ctrnn::sigmoid)`. -/
def activateLoopBody {n : ℕ} (e : K → K) (delta_t : K) (tau : Fin n → K)
    (wij : Fin n → Fin n → K) (theta inp : Fin n → K) (y : Fin n → K) : Fin n → K :=
  fun j =>
    y j + delta_t_tauV tau delta_t j *
      (matVecMul wij (fun k => sigmoid e (y k - theta k)) j - y j + inp j)

/-- `Ctrnn::activate_nn(steps)`: iterate the loop body `steps` times from the
initial state vector. -/
def activate_nn {n : ℕ} (e : K → K) (y0 : Fin n → K) (delta_t : K) (tau : Fin n → K)
    (wij : Fin n → Fin n → K) (theta inp : Fin n → K) (steps : ℕ) : Fin n → K :=
  (activateLoopBody e delta_t tau wij theta inp)^[steps] y0

/-- The element-wise Euler update exactly as the specification words it:
`y ← y + Δt·(1/τ)∘(W·σ(y−θ) − y + I)`, all vectors as columns. -/
def eulerUpdate {n : ℕ} (e : K → K) (delta_t : K) (tau : Fin n → K)
    (wij : Fin n → Fin n → K) (theta inp : Fin n → K) (y : Fin n → K) : Fin n → K :=
  fun j =>
    y j + delta_t * (1 / tau j) * ((∑ k, wij j k * sigmoid e (y k - theta k)) - y j + inp j)

end CtrnnModel

/-! ## Compatibility distance (src/nn/mod.rs, `distance`) -/

/-- Well-formedness of an id-keyed map: each entry is keyed by its gene's id.
`IndexMap` insertion in the sources always uses `gene.id()` as the key. -/
def keyGood {Id T : Type} (gid : T → Id) (m : List (Id × T)) : Prop :=
  ∀ kv ∈ m, kv.1 = gid kv.2

instance {Id T : Type} [DecidableEq Id] (gid : T → Id) (m : List (Id × T)) :
    Decidable (keyGood gid m) := by
  unfold keyGood
  infer_instance

/-- The `common_genes` vector of `distance`: iterate `genome1.values()` and
pair each gene with `genome2.get(&gene.id())` when present. -/
def commonPairs {Id T : Type} [DecidableEq Id] (gid : T → Id)
    (g1 g2 : List (Id × T)) : List (T × T) :=
  g1.filterMap (fun kv => (getVal g2 (gid kv.2)).map (fun w => (kv.2, w)))

/-- The generic `distance` function of src/nn/mod.rs over one gene map pair,
with the `Gene` trait methods passed explicitly (`gid` = `Gene::id`,
`gdist` = `Gene::distance`).  The disjoint count uses truncated natural
subtraction, as the Rust `usize` arithmetic does. -/
def distanceIM {Id T : Type} [DecidableEq Id] (gid : T → Id) (gdist : T → T → ℚ)
    (g1 g2 : List (Id × T)) (cd cw : ℚ) : ℚ :=
  let common := commonPairs gid g1 g2
  let disjoint_genes : ℚ := ((g1.length + g2.length - 2 * common.length : ℕ) : ℚ)
  let genes_distance : ℚ := (common.map (fun ab => gdist ab.1 ab.2)).sum
  let max_genes : ℚ := ((max g1.length g2.length : ℕ) : ℚ)
  if max_genes = 0 then 0 else (disjoint_genes * cd + genes_distance * cw) / max_genes

/-- `<NeuralNetwork as Genome>::distance`: the connection-map distance plus
the neuron-map distance. -/
def NeuralNetwork.distance (g1 g2 : NeuralNetwork) (p : NeatParams) : ℚ :=
  distanceIM ConnectionGene.cid ConnectionGene.distance g1.connections g2.connections
      p.distance_disjoint_coef p.distance_weight_coef
    + distanceIM NeuronGene.id NeuronGene.distance g1.neurons g2.neurons
        p.distance_disjoint_coef p.distance_weight_coef

/-- The set of homologous ids of two gene maps (ids present in both). -/
def commonIds {Id T : Type} [DecidableEq Id] (g1 g2 : List (Id × T)) : Finset Id :=
  (keysOf g1).toFinset ∩ (keysOf g2).toFinset

/-- Distance of the homologous pair with id `k` (0 when either side lacks it). -/
def pairDist {Id T : Type} [DecidableEq Id] (gdist : T → T → ℚ)
    (g1 g2 : List (Id × T)) (k : Id) : ℚ :=
  match getVal g1 k, getVal g2 k with
  | some a, some b => gdist a b
  | _, _ => 0

/-- The compatibility-distance formula exactly as the specification words it:
`d = (D · c_disjoint + Σ|gene₁ − gene₂| · c_weight) / max(|G₁|, |G₂|)` where
`D = (|G₁|+|G₂|) − 2·|homologous|`, the sum ranges over homologous pairs, and
`max = 0` yields 0. -/
def distanceFormula {Id T : Type} [DecidableEq Id] (gdist : T → T → ℚ)
    (g1 g2 : List (Id × T)) (cd cw : ℚ) : ℚ :=
  if max g1.length g2.length = 0 then 0
  else
    (((g1.length : ℚ) + (g2.length : ℚ) - 2 * ((commonIds g1 g2).card : ℚ)) * cd
        + (∑ k in commonIds g1 g2, pairDist gdist g1 g2 k) * cw)
      / ((max g1.length g2.length : ℕ) : ℚ)

/-! ## Crossover (src/nn/mod.rs, `reproduce` and `mate`) -/

/-- The gene chosen for one id during `reproduce`: the `worst` parent's copy
when it bears the id and the coin picks it (`coin id` is the outcome of
`rand::random::<f64>() < 0.5`, `true` picking `best`), the `best` parent's
copy otherwise. -/
def pickGene {Id T : Type} [DecidableEq Id] (coin : Id → Bool)
    (worst : List (Id × T)) (kv : Id × T) : T :=
  match getVal worst kv.1 with
  | some w => if coin kv.1 then kv.2 else w
  | none => kv.2

/-- `NeuralNetwork::reproduce`: iterate the `best` parent's genes in order,
inserting each into a fresh map, replaced by the homologous gene of `worst`
when the coin for its id says so. -/
def reproduce {Id T : Type} [DecidableEq Id] (coin : Id → Bool)
    (best worst : List (Id × T)) : List (Id × T) :=
  best.foldl (fun genes kv => insertIM genes kv.1 (pickGene coin worst kv)) []

/-- `<NeuralNetwork as Genome>::mate`: designate `self` as `best` when
`fittest` holds, then reproduce the neuron and connection maps.  (The
`NeuralNetwork::default()` the source first builds is fully overwritten.) -/
def mate (self other : NeuralNetwork) (fittest : Bool)
    (coinN : NeuronId → Bool) (coinC : ConnectionId → Bool) : NeuralNetwork :=
  let best := if fittest then self else other
  let worst := if fittest then other else self
  { neurons := reproduce coinN best.neurons worst.neurons,
    connections := reproduce coinC best.connections worst.connections }

/-! ## Mutation (src/nn/mod.rs, `mutate` and its sub-mutations) -/

/-- All random outcomes one `mutate` call can consume, in draw order: the
four probability comparisons of the structural branch, the raw `usize`
draws of the random picks, and per-index coins and `Normal` samples for the
value loops (the comparisons `rand::random::<f64>() < pr` are modelled by
their Boolean outcomes). -/
structure MutOracle where
  addConnCoin : Bool
  addConnInR : ℕ
  addConnOutR : ℕ
  addNeuronCoin : Bool
  addNeuronConnR : ℕ
  delNeuronCoin : Bool
  delNeuronR : ℕ
  delConnCoin : Bool
  delConnR : ℕ
  biasAddCoin : ℕ → Bool
  biasReplCoin : ℕ → Bool
  biasAddVal : ℕ → ℚ
  biasReplVal : ℕ → ℚ
  weightAddCoin : ℕ → Bool
  weightReplCoin : ℕ → Bool
  weightAddVal : ℕ → ℚ
  weightReplVal : ℕ → ℚ

/-- `get_random_key`: the key at position `r % len`.  `none` models the
panic of `%` by zero on an empty map. -/
def get_random_key {α β : Type} (r : ℕ) (m : List (α × β)) : Option α :=
  (m.get? (r % m.length)).map Prod.fst

/-- `NeuralNetwork::mutate_add_connection`: guarded no-op on an empty neuron
set, otherwise two independent uniform key picks and a zero-weight
`add_connection`. -/
def mutate_add_connection (o : MutOracle) (g : NeuralNetwork) : Option NeuralNetwork :=
  if g.neurons.length = 0 then some g
  else
    match get_random_key o.addConnInR g.neurons, get_random_key o.addConnOutR g.neurons with
    | some in_id, some out_id => add_connection g in_id out_id 0
    | _, _ => none

/-- `NeuralNetwork::mutate_del_conn`: remove a uniformly picked connection;
guarded no-op when there are none. -/
def mutate_del_conn (r : ℕ) (g : NeuralNetwork) : NeuralNetwork :=
  if 0 < g.connections.length then
    match get_random_key r g.connections with
    | some k => { g with connections := swapRemoveKey g.connections k }
    | none => g
  else g

/-- `NeuralNetwork::mutate_add_neuron`: with no connections, insert a bare
neuron with id `innov`; otherwise split a uniformly picked connection
through a new neuron (`C.in → N` weight 1, `N → C.out` weight `C.weight`). -/
def mutate_add_neuron (innov : ℕ) (r : ℕ) (g : NeuralNetwork) : Option NeuralNetwork :=
  if g.connections.length = 0 then
    some { g with neurons := insertIM g.neurons innov ⟨0, innov⟩ }
  else
    match get_random_key r g.connections with
    | none => none
    | some old_id =>
      match getVal g.connections old_id with
      | none => none
      | some old =>
        match add_connection
            { connections := swapRemoveKey g.connections old_id,
              neurons := insertIM g.neurons innov ⟨0, innov⟩ } old.in_neuron innov 1 with
        | none => none
        | some g3 => add_connection g3 innov old.out_neuron old.weight

/-- `NeuralNetwork::mutate_del_neuron`: guarded no-op when only sacred
neurons remain; otherwise swap-remove the neuron at a uniformly picked
non-sacred index and swap-remove every connection whose id touches it. -/
def mutate_del_neuron (p : NeatParams) (r : ℕ) (g : NeuralNetwork) : NeuralNetwork :=
  if g.neurons.length ≤ p.n_inputs + p.n_outputs then g
  else
    match g.neurons.get? (r % (g.neurons.length - (p.n_inputs + p.n_outputs))
        + (p.n_inputs + p.n_outputs)) with
    | none => g
    | some kv =>
      { connections :=
          ((g.connections.filter
              (fun c => c.1.1 == kv.1 || c.1.2 == kv.1)).map Prod.fst).foldl
            (fun cs cid => swapRemoveKey cs cid) g.connections,
        neurons := swapRemoveKey g.neurons kv.1 }

/-- The per-neuron bias loop of `mutate`: add a sample, else replace by a
sample, else keep. -/
def mutateBiases (o : MutOracle) (ns : List (NeuronId × NeuronGene)) :
    List (NeuronId × NeuronGene) :=
  ns.mapIdx (fun i kv =>
    if o.biasAddCoin i then (kv.1, { kv.2 with bias := kv.2.bias + o.biasAddVal i })
    else if o.biasReplCoin i then (kv.1, { kv.2 with bias := o.biasReplVal i })
    else kv)

/-- The per-connection weight loop of `mutate`. -/
def mutateWeights (o : MutOracle) (cs : List (ConnectionId × ConnectionGene)) :
    List (ConnectionId × ConnectionGene) :=
  cs.mapIdx (fun i kv =>
    if o.weightAddCoin i then (kv.1, { kv.2 with weight := kv.2.weight + o.weightAddVal i })
    else if o.weightReplCoin i then (kv.1, { kv.2 with weight := o.weightReplVal i })
    else kv)

/-- The total tail of `mutate`: the two guarded deletion sub-mutations in
source order, then the per-neuron bias loop and the per-connection weight
loop. -/
def mutateFinish (p : NeatParams) (o : MutOracle) (g2 : NeuralNetwork) : NeuralNetwork :=
  let g3 := if o.delNeuronCoin then mutate_del_neuron p o.delNeuronR g2 else g2
  let g4 := if o.delConnCoin then mutate_del_conn o.delConnR g3 else g3
  { connections := mutateWeights o g4.connections,
    neurons := mutateBiases o g4.neurons }

/-- `<NeuralNetwork as Genome>::mutate`: the four structural sub-mutations
in source order (add-connection also fires whenever the genome has no
connections), then the two value loops.  Returns the genome and the updated
innovation counter; `none` models a panic in a sub-mutation. -/
def mutate (p : NeatParams) (o : MutOracle) (innov : ℕ) (g : NeuralNetwork) :
    Option (NeuralNetwork × ℕ) :=
  Option.bind
    (if o.addConnCoin || g.connections.isEmpty then mutate_add_connection o g else some g)
    (fun g1 =>
      Option.bind
        (if o.addNeuronCoin
          then (mutate_add_neuron innov o.addNeuronConnR g1).map (fun h => (h, innov + 1))
          else some (g1, innov))
        (fun gi2 => some (mutateFinish p o gi2.1, gi2.2)))

/-- A finite sequence of `mutate` calls, each with its own parameter record,
its own fresh innovation counter and its own random outcomes. -/
def runMutations : NeuralNetwork → List (NeatParams × ℕ × MutOracle) → Option NeuralNetwork
  | g, [] => some g
  | g, (q, innov, o) :: rest =>
    match mutate q o innov g with
    | none => none
    | some gi => runMutations gi.1 rest

/-- Connection integrity (spec §8, invariant 1): every connection's
endpoints are present neuron ids. -/
def integrity (g : NeuralNetwork) : Prop :=
  ∀ kc ∈ g.connections,
    kc.2.in_neuron ∈ keysOf g.neurons ∧ kc.2.out_neuron ∈ keysOf g.neurons

instance (g : NeuralNetwork) : Decidable (integrity g) := by
  unfold integrity
  infer_instance

/-- Strengthened sacred-neuron invariant: for each `k < s` the neuron at
index `k` of the map is the neuron with id `k`.  (Indices of surviving
entries never grow under swap-removal, insertion appends, so the initial
layout of `with_neurons` persists at the sacred positions.) -/
def sacredAt (s : ℕ) (g : NeuralNetwork) : Prop :=
  ∀ k < s, (keysOf g.neurons).get? k = some k

instance (s : ℕ) (g : NeuralNetwork) : Decidable (sacredAt s g) := by
  unfold sacredAt
  infer_instance

/-- The invariant every mutation preserves: integrity, duplicate-free keys,
sacred neurons pinned at the first indices, and connection keys matching
their genes' endpoint pairs. -/
def MutInv (s : ℕ) (g : NeuralNetwork) : Prop :=
  integrity g ∧ (keysOf g.neurons).Nodup ∧ (keysOf g.connections).Nodup
    ∧ sacredAt s g ∧ keyGood ConnectionGene.cid g.connections

instance (s : ℕ) (g : NeuralNetwork) : Decidable (MutInv s g) := by
  unfold MutInv
  infer_instance

/-! ## Network materialisation (src/nn/mod.rs, `make_network` and `get_weights`) -/

/-- Modelled from the spec: `Ctrnn::new(theta, tau, wij, delta_t, steps)` as
called by `make_network` (the constructor itself is absent from the
snapshot); it stores its five arguments. -/
structure CtrnnNet where
  theta : List ℚ
  tau : List ℚ
  wij : List ℚ
  delta_t : ℚ
  steps : ℕ
deriving DecidableEq, Repr

/-- The loop of `NeuralNetwork::get_weights`: write each connection's weight
at `out_idx * n + in_idx`, both indices from `get_full` on the genome's
(unsorted, insertion-ordered) neuron map; `none` models the `unwrap` panic
when an endpoint is missing. -/
def get_weightsAux (neurons : List (NeuronId × NeuronGene)) (n : ℕ) :
    List (ConnectionId × ConnectionGene) → List ℚ → Option (List ℚ)
  | [], acc => some acc
  | (_, gene) :: rest, acc =>
    match idxOfKey neurons gene.out_neuron, idxOfKey neurons gene.in_neuron with
    | some oi, some ii => get_weightsAux neurons n rest (acc.set (oi * n + ii) gene.weight)
    | _, _ => none

/-- `NeuralNetwork::get_weights`: an n² zero vector overwritten per
connection. -/
def get_weights (g : NeuralNetwork) : Option (List ℚ) :=
  get_weightsAux g.neurons g.neurons.length g.connections
    (List.replicate (g.neurons.length * g.neurons.length) 0)

/-- `IndexMap::sort_keys` on the cloned neuron map: sort by neuron id. -/
def sortKeysIM (m : List (NeuronId × NeuronGene)) : List (NeuronId × NeuronGene) :=
  List.insertionSort (fun a b => a.1 ≤ b.1) m

instance : IsTotal (NeuronId × NeuronGene) (fun a b => a.1 ≤ b.1) :=
  ⟨fun a b => Nat.le_total a.1 b.1⟩

instance : IsTrans (NeuronId × NeuronGene) (fun a b => a.1 ≤ b.1) :=
  ⟨fun a b c hab hbc => Nat.le_trans hab hbc⟩

/-- `NeuralNetwork::make_network`: θ from the id-sorted clone of the neuron
map, τ = 1 everywhere, Δt = 1, S = 10, and W from `get_weights` — which
indexes the original, insertion-ordered map. -/
def make_network (g : NeuralNetwork) : Option CtrnnNet :=
  (get_weights g).map (fun wij =>
    { theta := (sortKeysIM g.neurons).map (fun kv => kv.2.bias),
      tau := List.replicate g.neurons.length 1,
      wij := wij,
      delta_t := 1,
      steps := 10 })

/-- The weight matrix exactly as the specification words it: the same
accumulation, but with both indices taken from the neurons' positions in
the *id-sorted* neuron list. -/
def specSortedWeights (g : NeuralNetwork) : Option (List ℚ) :=
  get_weightsAux (sortKeysIM g.neurons) g.neurons.length g.connections
    (List.replicate (g.neurons.length * g.neurons.length) 0)

/-- Whether connection entry `kv` writes flat position `p` of the weight
matrix in `get_weights` (indices from the insertion-ordered neuron map). -/
def writesAt (neurons : List (NeuronId × NeuronGene)) (n : ℕ)
    (kv : ConnectionId × ConnectionGene) (p : ℕ) : Prop :=
  ∃ oi ii, idxOfKey neurons kv.2.out_neuron = some oi
    ∧ idxOfKey neurons kv.2.in_neuron = some ii ∧ p = oi * n + ii

/-! ## Concrete genomes used by witnesses and counterexamples -/

/-- A genome whose neuron insertion order (id 1 first, id 0 second) differs
from the id-sorted order; its single self-loop at neuron 0 has weight 5 and
connection integrity holds. -/
def exSwapped : NeuralNetwork :=
  { connections := [((0, 0), ⟨0, 0, 5⟩)],
    neurons := [(1, ⟨0, 1⟩), (0, ⟨0, 0⟩)] }

/-- A single neuron with id 0, no connections. -/
def exOne : NeuralNetwork :=
  { connections := [], neurons := [(0, ⟨0, 0⟩)] }

/-- Three neurons with ids 0, 1, 2 in insertion order, no connections. -/
def exThree : NeuralNetwork :=
  { connections := [], neurons := [(0, ⟨0, 0⟩), (1, ⟨0, 1⟩), (2, ⟨0, 2⟩)] }

/-- Four neurons with ids 0, 1, 2, 3 in insertion order, no connections. -/
def exFour : NeuralNetwork :=
  { connections := [],
    neurons := [(0, ⟨0, 0⟩), (1, ⟨0, 1⟩), (2, ⟨0, 2⟩), (3, ⟨0, 3⟩)] }

/-- Parameters with a single sacred neuron (one input, no outputs). -/
def pC10 : NeatParams :=
  { n_inputs := 1, n_outputs := 0, distance_disjoint_coef := 1,
    distance_weight_coef := 1, bias_mutate_var := 1, weight_mutate_var := 1 }

/-- The genome `mutate` produces from `with_neurons 2` under the all-false,
all-zero oracle: the forced add-connection turns into a self-loop at
neuron 0. -/
def exMutated : NeuralNetwork :=
  { connections := [((0, 0), ⟨0, 0, 0⟩)],
    neurons := [(0, ⟨0, 0⟩), (1, ⟨0, 1⟩)] }

/-- A concrete oracle: every coin `false`, every draw 0. -/
def exO : MutOracle :=
  { addConnCoin := false, addConnInR := 0, addConnOutR := 0,
    addNeuronCoin := false, addNeuronConnR := 0,
    delNeuronCoin := false, delNeuronR := 0,
    delConnCoin := false, delConnR := 0,
    biasAddCoin := fun _ => false, biasReplCoin := fun _ => false,
    biasAddVal := fun _ => 0, biasReplVal := fun _ => 0,
    weightAddCoin := fun _ => false, weightReplCoin := fun _ => false,
    weightAddVal := fun _ => 0, weightReplVal := fun _ => 0 }

/-- A small well-formed genome: two neurons, two connections. -/
def exA : NeuralNetwork :=
  { connections := [((0, 0), ⟨0, 0, 1⟩), ((0, 1), ⟨0, 1, 2⟩)],
    neurons := [(0, ⟨0, 0⟩), (1, ⟨1, 1⟩)] }

/-- A second small well-formed genome sharing one connection id with `exA`. -/
def exB : NeuralNetwork :=
  { connections := [((0, 0), ⟨0, 0, 3⟩)],
    neurons := [(0, ⟨5, 0⟩), (2, ⟨1, 2⟩)] }

/-- A concrete parameter record for witnesses. -/
def exP : NeatParams :=
  { n_inputs := 1, n_outputs := 1, distance_disjoint_coef := 1,
    distance_weight_coef := 1/2, bias_mutate_var := 1, weight_mutate_var := 1 }

/-! # Theorems -/

theorem keysOf_cons {α β : Type} (k : α) (v : β) (rest : List (α × β)) :
    keysOf ((k, v) :: rest) = k :: keysOf rest := rfl

theorem getVal_isSome_of_mem {α β : Type} [DecidableEq α] {m : List (α × β)} {a : α}
    (h : a ∈ keysOf m) : ∃ v, getVal m a = some v := by
  induction m with
  | nil => simp [keysOf] at h
  | cons kv rest ih =>
    rcases kv with ⟨k, v⟩
    by_cases hk : k = a
    · exact ⟨v, by simp [getVal, hk]⟩
    · have : a ∈ keysOf rest := by
        rw [keysOf_cons, List.mem_cons] at h
        rcases h with h | h
        · exact absurd h.symm hk
        · exact h
      obtain ⟨w, hw⟩ := ih this
      exact ⟨w, by simp [getVal, hk, hw]⟩

theorem mem_of_getVal_some {α β : Type} [DecidableEq α] {m : List (α × β)} {a : α} {v : β}
    (h : getVal m a = some v) : a ∈ keysOf m := by
  induction m with
  | nil => simp [getVal] at h
  | cons kv rest ih =>
    rcases kv with ⟨k, w⟩
    by_cases hk : k = a
    · rw [keysOf_cons, List.mem_cons]
      exact Or.inl hk.symm
    · simp only [getVal, hk, if_false] at h
      rw [keysOf_cons, List.mem_cons]
      exact Or.inr (ih h)

theorem getVal_cons_ne {α β : Type} [DecidableEq α] {k a : α} {v : β} {rest : List (α × β)}
    (h : k ≠ a) : getVal ((k, v) :: rest) a = getVal rest a := by
  simp [getVal, h]

theorem commonIds_cons_mem {Id T : Type} [DecidableEq Id] {k : Id} {v : T}
    {rest g2 : List (Id × T)} (h : k ∈ keysOf g2) :
    commonIds ((k, v) :: rest) g2 = insert k (commonIds rest g2) := by
  have : k ∈ (keysOf g2).toFinset := List.mem_toFinset.2 h
  simp only [commonIds, keysOf, List.map_cons, List.toFinset_cons]
  exact Finset.insert_inter_of_mem this

theorem commonIds_cons_not_mem {Id T : Type} [DecidableEq Id] {k : Id} {v : T}
    {rest g2 : List (Id × T)} (h : k ∉ keysOf g2) :
    commonIds ((k, v) :: rest) g2 = commonIds rest g2 := by
  have : k ∉ (keysOf g2).toFinset := fun hm => h (List.mem_toFinset.1 hm)
  simp only [commonIds, keysOf, List.map_cons, List.toFinset_cons]
  exact Finset.insert_inter_of_not_mem this

theorem commonIds_subset_left {Id T : Type} [DecidableEq Id] (g1 g2 : List (Id × T)) :
    commonIds g1 g2 ⊆ (keysOf g1).toFinset := Finset.inter_subset_left

theorem commonPairs_length_eq_card {Id T : Type} [DecidableEq Id] (gid : T → Id)
    (g1 g2 : List (Id × T)) (h1 : keyGood gid g1) (hn : (keysOf g1).Nodup) :
    (commonPairs gid g1 g2).length = (commonIds g1 g2).card := by
  induction g1 with
  | nil => simp [commonPairs, commonIds, keysOf]
  | cons kv rest ih =>
    rcases kv with ⟨k, v⟩
    have hkv : k = gid v := h1 (k, v) (by simp)
    have hrest : keyGood gid rest := fun x hx => h1 x (by simp [hx])
    have hkn : k ∉ keysOf rest := by
      simp only [keysOf, List.map_cons, List.nodup_cons] at hn
      exact hn.1
    have hnr : (keysOf rest).Nodup := by
      simp only [keysOf, List.map_cons, List.nodup_cons] at hn
      exact hn.2
    have hknf : k ∉ commonIds rest g2 := fun hm =>
      hkn (List.mem_toFinset.1 (commonIds_subset_left rest g2 hm))
    have ihr := ih hrest hnr
    cases hgv : getVal g2 k with
    | none =>
      have hkg2 : k ∉ keysOf g2 := by
        intro hmem
        obtain ⟨w, hw⟩ := getVal_isSome_of_mem hmem
        rw [hw] at hgv
        exact Option.noConfusion hgv
      rw [commonIds_cons_not_mem hkg2]
      simp only [commonPairs, List.filterMap_cons, ← hkv, hgv, Option.map_none'] at ihr ⊢
      exact ihr
    | some w =>
      have hkg2 : k ∈ keysOf g2 := mem_of_getVal_some hgv
      rw [commonIds_cons_mem hkg2, Finset.card_insert_of_not_mem hknf]
      simp only [commonPairs, List.filterMap_cons, ← hkv, hgv, Option.map_some',
        List.length_cons] at ihr ⊢
      rw [ihr]

theorem commonPairs_sum_eq {Id T : Type} [DecidableEq Id] (gid : T → Id)
    (gdist : T → T → ℚ) (g1 g2 : List (Id × T)) (h1 : keyGood gid g1)
    (hn : (keysOf g1).Nodup) :
    ((commonPairs gid g1 g2).map (fun ab => gdist ab.1 ab.2)).sum
      = ∑ k in commonIds g1 g2, pairDist gdist g1 g2 k := by
  induction g1 with
  | nil => simp [commonPairs, commonIds, keysOf]
  | cons kv rest ih =>
    rcases kv with ⟨k, v⟩
    have hkv : k = gid v := h1 (k, v) (by simp)
    have hrest : keyGood gid rest := fun x hx => h1 x (by simp [hx])
    have hkn : k ∉ keysOf rest := by
      simp only [keysOf, List.map_cons, List.nodup_cons] at hn
      exact hn.1
    have hnr : (keysOf rest).Nodup := by
      simp only [keysOf, List.map_cons, List.nodup_cons] at hn
      exact hn.2
    have hknf : k ∉ commonIds rest g2 := fun hm =>
      hkn (List.mem_toFinset.1 (commonIds_subset_left rest g2 hm))
    have hcongr : ∑ x in commonIds rest g2, pairDist gdist rest g2 x
        = ∑ x in commonIds rest g2, pairDist gdist ((k, v) :: rest) g2 x := by
      refine Finset.sum_congr rfl (fun x hx => ?_)
      have hxk : k ≠ x := by
        intro he
        exact hknf (he ▸ hx)
      simp only [pairDist, getVal_cons_ne hxk]
    have ihr := ih hrest hnr
    cases hgv : getVal g2 k with
    | none =>
      have hkg2 : k ∉ keysOf g2 := by
        intro hmem
        obtain ⟨w, hw⟩ := getVal_isSome_of_mem hmem
        rw [hw] at hgv
        exact Option.noConfusion hgv
      rw [commonIds_cons_not_mem hkg2]
      simp only [commonPairs, List.filterMap_cons, ← hkv, hgv, Option.map_none'] at ihr ⊢
      rw [ihr, hcongr]
    | some w =>
      have hkg2 : k ∈ keysOf g2 := mem_of_getVal_some hgv
      rw [commonIds_cons_mem hkg2, Finset.sum_insert hknf]
      have hhead : pairDist gdist ((k, v) :: rest) g2 k = gdist v w := by
        simp [pairDist, getVal, hgv]
      simp only [commonPairs, List.filterMap_cons, ← hkv, hgv, Option.map_some',
        List.map_cons, List.sum_cons] at ihr ⊢
      rw [ihr, hcongr, hhead]

theorem commonPairs_length_le_left {Id T : Type} [DecidableEq Id] (gid : T → Id)
    (g1 g2 : List (Id × T)) : (commonPairs gid g1 g2).length ≤ g1.length := by
  simpa [commonPairs] using List.length_filterMap_le
    (fun kv : Id × T => (getVal g2 (gid kv.2)).map (fun w => (kv.2, w))) g1

theorem distanceIM_eq_formula {Id T : Type} [DecidableEq Id] (gid : T → Id)
    (gdist : T → T → ℚ) (g1 g2 : List (Id × T)) (cd cw : ℚ)
    (h1 : keyGood gid g1) (hn : (keysOf g1).Nodup) :
    distanceIM gid gdist g1 g2 cd cw = distanceFormula gdist g1 g2 cd cw := by
  have hlen := commonPairs_length_eq_card gid g1 g2 h1 hn
  have hsum := commonPairs_sum_eq gid gdist g1 g2 h1 hn
  have hbound : 2 * (commonPairs gid g1 g2).length ≤ g1.length + g2.length := by
    have hle1 : (commonPairs gid g1 g2).length ≤ g1.length :=
      commonPairs_length_le_left gid g1 g2
    have hle2 : (commonPairs gid g1 g2).length ≤ g2.length := by
      rw [hlen]
      calc (commonIds g1 g2).card ≤ (keysOf g2).toFinset.card :=
            Finset.card_le_card Finset.inter_subset_right
        _ ≤ (keysOf g2).length := List.toFinset_card_le _
        _ = g2.length := by simp [keysOf]
    omega
  simp only [distanceIM, distanceFormula]
  by_cases hmax : max g1.length g2.length = 0
  · simp [hmax]
  · have hmax2 : ((max g1.length g2.length : ℕ) : ℚ) ≠ 0 := by
      exact_mod_cast hmax
    rw [if_neg hmax2, if_neg hmax]
    have hcast : ((g1.length + g2.length - 2 * (commonPairs gid g1 g2).length : ℕ) : ℚ)
        = (g1.length : ℚ) + (g2.length : ℚ) - 2 * ((commonIds g1 g2).card : ℚ) := by
      rw [Nat.cast_sub hbound]
      push_cast [hlen]
      ring
    rw [hcast, hsum]

theorem distanceFormula_symm {Id T : Type} [DecidableEq Id] (gdist : T → T → ℚ)
    (hsym : ∀ a b, gdist a b = gdist b a) (g1 g2 : List (Id × T)) (cd cw : ℚ) :
    distanceFormula gdist g1 g2 cd cw = distanceFormula gdist g2 g1 cd cw := by
  have hComm : commonIds g1 g2 = commonIds g2 g1 := Finset.inter_comm _ _
  have hPair : ∀ k, pairDist gdist g1 g2 k = pairDist gdist g2 g1 k := by
    intro k
    simp only [pairDist]
    cases getVal g1 k with
    | none => cases getVal g2 k <;> rfl
    | some a => cases getVal g2 k with
      | none => rfl
      | some b => exact hsym a b
  have hsum2 : (∑ k in commonIds g2 g1, pairDist gdist g1 g2 k)
      = ∑ k in commonIds g2 g1, pairDist gdist g2 g1 k :=
    Finset.sum_congr rfl (fun k _ => hPair k)
  simp only [distanceFormula, hComm, hsum2, max_comm g1.length g2.length]
  split
  · rfl
  · ring

/-- C1: for every initial state `y0`, bias vector `theta`, time constants
`tau`, n×n weight matrix `wij`, input `inp`, step size `delta_t` and step
count `steps`, `Ctrnn::activate_nn` returns exactly the `steps`-fold
iteration of the element-wise Euler update
`y ← y + Δt·(1/τ)∘(W·σ(y−θ) − y + I)` with `σ(x) = 1/(1+e^−x)`. -/
theorem activate_nn_iterates_euler_update {K : Type} [Field K] {n : ℕ} (e : K → K)
    (y0 : Fin n → K) (delta_t : K) (tau : Fin n → K) (wij : Fin n → Fin n → K)
    (theta inp : Fin n → K) (steps : ℕ) :
    activate_nn e y0 delta_t tau wij theta inp steps =
      (eulerUpdate e delta_t tau wij theta inp)^[steps] y0 := by
  have hstep : activateLoopBody e delta_t tau wij theta inp
      = eulerUpdate e delta_t tau wij theta inp := by
    funext y j
    simp only [activateLoopBody, eulerUpdate, delta_t_tauV, matVecMul]
    ring
  simp only [activate_nn, hstep]

theorem distanceIM_self_eq_zero {Id T : Type} [DecidableEq Id] (gid : T → Id)
    (gdist : T → T → ℚ) (g : List (Id × T)) (cd cw : ℚ)
    (h1 : keyGood gid g) (hn : (keysOf g).Nodup) (hrefl : ∀ a, gdist a a = 0) :
    distanceIM gid gdist g g cd cw = 0 := by
  rw [distanceIM_eq_formula gid gdist g g cd cw h1 hn]
  have hci : commonIds g g = (keysOf g).toFinset := Finset.inter_self _
  have hcard : ((commonIds g g).card : ℚ) = (g.length : ℚ) := by
    rw [hci, List.toFinset_card_of_nodup hn]
    simp [keysOf]
  have hsum : (∑ k in commonIds g g, pairDist gdist g g k) = 0 := by
    refine Finset.sum_eq_zero (fun k hk => ?_)
    rw [hci] at hk
    obtain ⟨a, ha⟩ := getVal_isSome_of_mem (List.mem_toFinset.1 hk)
    simp [pairDist, ha, hrefl]
  have hnum : ((g.length : ℚ) + (g.length : ℚ) - 2 * ((commonIds g g).card : ℚ)) = 0 := by
    rw [hcard]
    ring
  simp only [distanceFormula, hsum, hnum, max_self]
  split
  · rfl
  · simp

/-- C4: for every pair of genomes and parameters, `NeuralNetwork::distance`
equals the sum, over the connection maps and the neuron maps separately, of
`(D · c_disjoint + Σ|gene₁ − gene₂| · c_weight) / max(|G₁|, |G₂|)` with
`D = (|G₁|+|G₂|) − 2·|homologous|`, the sum over homologous pairs, and a
component with `max = 0` contributing 0.  The hypotheses state that the
first genome's maps are well-formed `IndexMap`s (keys duplicate-free and
matching the genes' ids), which every genome built by the library satisfies. -/
theorem nn_distance_eq_spec_formula (g1 g2 : NeuralNetwork) (p : NeatParams)
    (hc : keyGood ConnectionGene.cid g1.connections)
    (hcn : (keysOf g1.connections).Nodup)
    (hn : keyGood NeuronGene.id g1.neurons)
    (hnn : (keysOf g1.neurons).Nodup) :
    NeuralNetwork.distance g1 g2 p
      = distanceFormula ConnectionGene.distance g1.connections g2.connections
          p.distance_disjoint_coef p.distance_weight_coef
        + distanceFormula NeuronGene.distance g1.neurons g2.neurons
            p.distance_disjoint_coef p.distance_weight_coef := by
  unfold NeuralNetwork.distance
  rw [distanceIM_eq_formula _ _ _ _ _ _ hc hcn,
    distanceIM_eq_formula _ _ _ _ _ _ hn hnn]

theorem nn_distance_eq_spec_formula_witness :
    (keyGood ConnectionGene.cid exA.connections ∧ (keysOf exA.connections).Nodup
      ∧ keyGood NeuronGene.id exA.neurons ∧ (keysOf exA.neurons).Nodup)
    ∧ NeuralNetwork.distance exA exB exP
        = distanceFormula ConnectionGene.distance exA.connections exB.connections
            exP.distance_disjoint_coef exP.distance_weight_coef
          + distanceFormula NeuronGene.distance exA.neurons exB.neurons
              exP.distance_disjoint_coef exP.distance_weight_coef :=
  ⟨⟨by decide, by decide, by decide, by decide⟩,
    nn_distance_eq_spec_formula exA exB exP (by decide) (by decide) (by decide) (by decide)⟩

/-- C6: the compatibility distance is symmetric and the distance of a genome
to itself is 0, for all well-formed genomes (duplicate-free `IndexMap` keys
matching the genes' ids, as the library maintains). -/
theorem nn_distance_symm_and_self_zero (g1 g2 : NeuralNetwork) (p : NeatParams)
    (hc1 : keyGood ConnectionGene.cid g1.connections)
    (hcn1 : (keysOf g1.connections).Nodup)
    (hn1 : keyGood NeuronGene.id g1.neurons)
    (hnn1 : (keysOf g1.neurons).Nodup)
    (hc2 : keyGood ConnectionGene.cid g2.connections)
    (hcn2 : (keysOf g2.connections).Nodup)
    (hn2 : keyGood NeuronGene.id g2.neurons)
    (hnn2 : (keysOf g2.neurons).Nodup) :
    NeuralNetwork.distance g1 g2 p = NeuralNetwork.distance g2 g1 p
      ∧ NeuralNetwork.distance g1 g1 p = 0 := by
  constructor
  · rw [nn_distance_eq_spec_formula g1 g2 p hc1 hcn1 hn1 hnn1,
      nn_distance_eq_spec_formula g2 g1 p hc2 hcn2 hn2 hnn2,
      distanceFormula_symm ConnectionGene.distance
        (fun a b => abs_sub_comm a.weight b.weight) g1.connections g2.connections,
      distanceFormula_symm NeuronGene.distance
        (fun a b => abs_sub_comm a.bias b.bias) g1.neurons g2.neurons]
  · unfold NeuralNetwork.distance
    rw [distanceIM_self_eq_zero _ _ _ _ _ hc1 hcn1
        (fun a => by simp [ConnectionGene.distance]),
      distanceIM_self_eq_zero _ _ _ _ _ hn1 hnn1
        (fun a => by simp [NeuronGene.distance])]
    ring

theorem nn_distance_symm_and_self_zero_witness :
    (keyGood ConnectionGene.cid exA.connections ∧ (keysOf exA.connections).Nodup
      ∧ keyGood NeuronGene.id exA.neurons ∧ (keysOf exA.neurons).Nodup
      ∧ keyGood ConnectionGene.cid exB.connections ∧ (keysOf exB.connections).Nodup
      ∧ keyGood NeuronGene.id exB.neurons ∧ (keysOf exB.neurons).Nodup)
    ∧ NeuralNetwork.distance exA exB exP = NeuralNetwork.distance exB exA exP
    ∧ NeuralNetwork.distance exA exA exP = 0 :=
  ⟨⟨by decide, by decide, by decide, by decide, by decide, by decide, by decide, by decide⟩,
    nn_distance_symm_and_self_zero exA exB exP (by decide) (by decide) (by decide)
      (by decide) (by decide) (by decide) (by decide) (by decide)⟩

theorem keysOf_setWeightAt (m : List (ConnectionId × ConnectionGene)) (key : ConnectionId)
    (w : ℚ) : keysOf (setWeightAt m key w) = keysOf m := by
  induction m with
  | nil => rfl
  | cons kv rest ih =>
    rcases kv with ⟨k, c⟩
    by_cases hk : k = key
    · simp [setWeightAt, hk, keysOf]
    · simp [setWeightAt, hk, keysOf] at ih ⊢
      exact ih

theorem length_setWeightAt (m : List (ConnectionId × ConnectionGene)) (key : ConnectionId)
    (w : ℚ) : (setWeightAt m key w).length = m.length := by
  induction m with
  | nil => rfl
  | cons kv rest ih =>
    rcases kv with ⟨k, c⟩
    by_cases hk : k = key
    · simp [setWeightAt, hk]
    · simp [setWeightAt, hk, ih]

theorem getVal_setWeightAt_self (m : List (ConnectionId × ConnectionGene))
    (key : ConnectionId) (w : ℚ) :
    getVal (setWeightAt m key w) key = (getVal m key).map (fun c => { c with weight := w }) := by
  induction m with
  | nil => rfl
  | cons kv rest ih =>
    rcases kv with ⟨k, c⟩
    by_cases hk : k = key
    · simp [setWeightAt, hk, getVal]
    · simp [setWeightAt, hk, getVal, ih]

theorem getVal_setWeightAt_ne (m : List (ConnectionId × ConnectionGene))
    (key k' : ConnectionId) (w : ℚ) (h : k' ≠ key) :
    getVal (setWeightAt m key w) k' = getVal m k' := by
  induction m with
  | nil => rfl
  | cons kv rest ih =>
    rcases kv with ⟨k, c⟩
    by_cases hk : k = key
    · have hkey : ¬ key = k' := fun he => h he.symm
      simp [setWeightAt, hk, getVal, hkey]
    · by_cases hk' : k = k'
      · simp [setWeightAt, hk, getVal, hk', h]
      · simp [setWeightAt, hk, getVal, hk', ih]

/-- C8: `add_connection(in, out, weight)` panics exactly when `in` or `out`
is not a present neuron id (the empty neuron set being a special case of
that); otherwise it succeeds, and when a connection with id `(in, out)`
already exists it only overwrites that connection's weight in place — the
key sequence, the map length and every other entry are unchanged, so no
duplicate is added. -/
theorem add_connection_spec (g : NeuralNetwork) (a b : ℕ) (w : ℚ) :
    (add_connection g a b w = none ↔ (a ∉ keysOf g.neurons ∨ b ∉ keysOf g.neurons))
    ∧ ((a ∈ keysOf g.neurons ∧ b ∈ keysOf g.neurons ∧ (a, b) ∈ keysOf g.connections) →
        ∃ g', add_connection g a b w = some g'
          ∧ g'.neurons = g.neurons
          ∧ keysOf g'.connections = keysOf g.connections
          ∧ g'.connections.length = g.connections.length
          ∧ getVal g'.connections (a, b)
              = (getVal g.connections (a, b)).map (fun c => { c with weight := w })
          ∧ ∀ k, k ≠ (a, b) → getVal g'.connections k = getVal g.connections k) := by
  constructor
  · constructor
    · intro hnone
      by_contra hmem
      push_neg at hmem
      have hne : g.neurons.length ≠ 0 := by
        intro h0
        rw [List.length_eq_zero] at h0
        rw [h0] at hmem
        simp [keysOf] at hmem
      simp [add_connection, hne, hmem.1, hmem.2] at hnone
    · intro hmiss
      rcases hmiss with hmiss | hmiss
      · by_cases h0 : g.neurons.length = 0
        · simp [add_connection, h0]
        · simp [add_connection, h0, hmiss]
      · by_cases h0 : g.neurons.length = 0
        · simp [add_connection, h0]
        · by_cases ha : a ∈ keysOf g.neurons
          · simp [add_connection, h0, ha, hmiss]
          · simp [add_connection, h0, ha]
  · rintro ⟨ha, hb, hab⟩
    have hne : g.neurons.length ≠ 0 := by
      intro h0
      rw [List.length_eq_zero] at h0
      rw [h0] at ha
      simp [keysOf] at ha
    refine ⟨{ g with connections := setWeightAt g.connections (a, b) w }, ?_, rfl,
      keysOf_setWeightAt _ _ _, length_setWeightAt _ _ _,
      getVal_setWeightAt_self _ _ _, fun k hk => getVal_setWeightAt_ne _ _ _ _ hk⟩
    simp [add_connection, hne, ha, hb, hab]

theorem add_connection_spec_witness :
    ((0 : ℕ) ∈ keysOf exA.neurons ∧ (1 : ℕ) ∈ keysOf exA.neurons
      ∧ ((0, 1) : ConnectionId) ∈ keysOf exA.connections)
    ∧ (∃ g', add_connection exA 0 1 9 = some g'
        ∧ g'.neurons = exA.neurons
        ∧ keysOf g'.connections = keysOf exA.connections
        ∧ g'.connections.length = exA.connections.length
        ∧ getVal g'.connections (0, 1)
            = (getVal exA.connections (0, 1)).map (fun c => { c with weight := 9 })
        ∧ ∀ k, k ≠ ((0, 1) : ConnectionId) →
            getVal g'.connections k = getVal exA.connections k) :=
  ⟨⟨by decide, by decide, by decide⟩,
    (add_connection_spec exA 0 1 9).2 ⟨by decide, by decide, by decide⟩⟩


theorem insertIM_fresh {α β : Type} [DecidableEq α] {m : List (α × β)} {a : α} (b : β)
    (h : a ∉ keysOf m) : insertIM m a b = m ++ [(a, b)] := by
  induction m with
  | nil => rfl
  | cons kv rest ih =>
    rcases kv with ⟨k, v⟩
    rw [keysOf_cons, List.mem_cons] at h
    push_neg at h
    have hka : ¬ k = a := fun he => h.1 he.symm
    simp only [insertIM, if_neg hka, List.cons_append]
    rw [ih h.2]

theorem foldl_insertIM_fresh {Id T : Type} [DecidableEq Id] (f : (Id × T) → T) :
    ∀ (l : List (Id × T)) (acc : List (Id × T)),
      (∀ kv ∈ l, kv.1 ∉ keysOf acc) → (keysOf l).Nodup →
      l.foldl (fun genes kv => insertIM genes kv.1 (f kv)) acc
        = acc ++ l.map (fun kv => (kv.1, f kv)) := by
  intro l
  induction l with
  | nil => intro acc _ _; simp
  | cons kv rest ih =>
    intro acc hdisj hnd
    rcases kv with ⟨k, v⟩
    rw [keysOf_cons, List.nodup_cons] at hnd
    have hk : k ∉ keysOf acc := hdisj (k, v) (by simp)
    simp only [List.foldl_cons, List.map_cons]
    rw [insertIM_fresh (f (k, v)) hk]
    rw [ih (acc ++ [(k, f (k, v))]) ?_ hnd.2]
    · simp
    · intro kv hkv
      have h1 : kv.1 ∉ keysOf acc := hdisj kv (by simp [hkv])
      have h2 : kv.1 ≠ k := by
        intro he
        exact hnd.1 (he ▸ (List.mem_map.2 ⟨kv, hkv, rfl⟩))
      simp only [keysOf, List.map_append, List.mem_append, List.map_cons]
      rintro (hc | hc)
      · exact h1 hc
      · simp at hc
        exact h2 hc

theorem reproduce_eq_map {Id T : Type} [DecidableEq Id] (coin : Id → Bool)
    (best worst : List (Id × T)) (hnd : (keysOf best).Nodup) :
    reproduce coin best worst
      = best.map (fun kv => (kv.1, pickGene coin worst kv)) := by
  unfold reproduce
  rw [foldl_insertIM_fresh _ best [] (fun kv _ => by simp [keysOf]) hnd]
  simp

/-- C5: for every pair of genomes `A`, `B` (with duplicate-free keys, as
`IndexMap` guarantees) and every random outcome, the child of
`A.mate(B, fittest := true)` has exactly the key sequence (hence the id set)
of `A` for both neurons and connections, and every gene of the child is
either `A`'s gene or — only when `B` contains a gene with the same id —
`B`'s gene with that id. -/
theorem mate_fittest_true_spec (A B : NeuralNetwork)
    (coinN : NeuronId → Bool) (coinC : ConnectionId → Bool)
    (hnn : (keysOf A.neurons).Nodup) (hnc : (keysOf A.connections).Nodup) :
    keysOf (mate A B true coinN coinC).neurons = keysOf A.neurons
    ∧ keysOf (mate A B true coinN coinC).connections = keysOf A.connections
    ∧ (∀ kv ∈ (mate A B true coinN coinC).neurons,
        kv ∈ A.neurons ∨ (∃ w, getVal B.neurons kv.1 = some w ∧ kv.2 = w))
    ∧ (∀ kv ∈ (mate A B true coinN coinC).connections,
        kv ∈ A.connections ∨ (∃ w, getVal B.connections kv.1 = some w ∧ kv.2 = w)) := by
  have hN : (mate A B true coinN coinC).neurons
      = A.neurons.map (fun kv => (kv.1, pickGene coinN B.neurons kv)) := by
    have h0 : (mate A B true coinN coinC).neurons
        = reproduce coinN A.neurons B.neurons := rfl
    rw [h0, reproduce_eq_map coinN A.neurons B.neurons hnn]
  have hC : (mate A B true coinN coinC).connections
      = A.connections.map (fun kv => (kv.1, pickGene coinC B.connections kv)) := by
    have h0 : (mate A B true coinN coinC).connections
        = reproduce coinC A.connections B.connections := rfl
    rw [h0, reproduce_eq_map coinC A.connections B.connections hnc]
  refine ⟨?_, ?_, ?_, ?_⟩
  · rw [hN]
    simp [keysOf, List.map_map, Function.comp]
  · rw [hC]
    simp [keysOf, List.map_map, Function.comp]
  · intro kv hkv
    rw [hN] at hkv
    obtain ⟨ab, hab, hmk⟩ := List.mem_map.1 hkv
    subst hmk
    cases hv : getVal B.neurons ab.1 with
    | none =>
      left
      have hp : pickGene coinN B.neurons ab = ab.2 := by simp [pickGene, hv]
      rw [hp]
      exact hab
    | some w =>
      by_cases hcoin : coinN ab.1
      · left
        have hp : pickGene coinN B.neurons ab = ab.2 := by simp [pickGene, hv, hcoin]
        rw [hp]
        exact hab
      · right
        refine ⟨w, rfl, ?_⟩
        simp [pickGene, hv, hcoin]
  · intro kv hkv
    rw [hC] at hkv
    obtain ⟨ab, hab, hmk⟩ := List.mem_map.1 hkv
    subst hmk
    cases hv : getVal B.connections ab.1 with
    | none =>
      left
      have hp : pickGene coinC B.connections ab = ab.2 := by simp [pickGene, hv]
      rw [hp]
      exact hab
    | some w =>
      by_cases hcoin : coinC ab.1
      · left
        have hp : pickGene coinC B.connections ab = ab.2 := by simp [pickGene, hv, hcoin]
        rw [hp]
        exact hab
      · right
        refine ⟨w, rfl, ?_⟩
        simp [pickGene, hv, hcoin]

theorem mate_fittest_true_spec_witness :
    ((keysOf exA.neurons).Nodup ∧ (keysOf exA.connections).Nodup)
    ∧ (keysOf (mate exA exB true (fun _ => false) (fun _ => false)).neurons
        = keysOf exA.neurons
      ∧ keysOf (mate exA exB true (fun _ => false) (fun _ => false)).connections
          = keysOf exA.connections
      ∧ (∀ kv ∈ (mate exA exB true (fun _ => false) (fun _ => false)).neurons,
          kv ∈ exA.neurons ∨ (∃ w, getVal exB.neurons kv.1 = some w ∧ kv.2 = w))
      ∧ (∀ kv ∈ (mate exA exB true (fun _ => false) (fun _ => false)).connections,
          kv ∈ exA.connections ∨ (∃ w, getVal exB.connections kv.1 = some w ∧ kv.2 = w))) :=
  ⟨⟨by decide, by decide⟩,
    mate_fittest_true_spec exA exB (fun _ => false) (fun _ => false) (by decide) (by decide)⟩

theorem swapRemoveIdx_perm {γ : Type} :
    ∀ (l : List γ) (i : ℕ), i < l.length → (swapRemoveIdx l i).Perm (l.eraseIdx i) := by
  intro l
  induction l with
  | nil => intro i hi; simp at hi
  | cons x xs ih =>
    intro i hi
    cases i with
    | zero =>
      cases xs with
      | nil => simp [swapRemoveIdx]
      | cons y ys =>
        have hne : (y :: ys : List γ) ≠ [] := by simp
        have hlast : (x :: y :: ys).getLast? = some ((y :: ys).getLast hne) := by
          rw [List.getLast?_cons_cons]
          exact List.getLast?_eq_getLast _ hne
        simp only [swapRemoveIdx, hlast, List.set]
        have hdl : ((y :: ys).getLast hne :: y :: ys).dropLast
            = (y :: ys).getLast hne :: (y :: ys).dropLast := by
          exact List.dropLast_cons_of_ne_nil hne
        rw [hdl]
        have hsplit : (y :: ys).dropLast ++ [(y :: ys).getLast hne] = y :: ys :=
          List.dropLast_append_getLast hne
        have hperm : ((y :: ys).dropLast ++ [(y :: ys).getLast hne]).Perm
            ((y :: ys).getLast hne :: (y :: ys).dropLast) :=
          List.perm_append_singleton _ _
        simpa [hsplit, List.eraseIdx] using hperm.symm
    | succ i =>
      cases xs with
      | nil => simp at hi
      | cons y ys =>
        have hi2 : i < (y :: ys).length := by simpa using hi
        have hne : (y :: ys : List γ) ≠ [] := by simp
        have hlast : (x :: y :: ys).getLast? = (y :: ys).getLast? :=
          List.getLast?_cons_cons
        have hlast2 : (y :: ys).getLast? = some ((y :: ys).getLast hne) :=
          List.getLast?_eq_getLast _ hne
        simp only [swapRemoveIdx, hlast, hlast2, List.set]
        have hsetne : (y :: ys).set i ((y :: ys).getLast hne) ≠ [] := by
          intro h
          have := congrArg List.length h
          simp at this
        rw [List.dropLast_cons_of_ne_nil hsetne, List.eraseIdx]
        refine List.Perm.cons x ?_
        have := ih i hi2
        simpa [swapRemoveIdx, hlast2] using this

theorem mem_swapRemoveIdx {γ : Type} {l : List γ} {i : ℕ} {x : γ}
    (hi : i < l.length) (hx : x ∈ swapRemoveIdx l i) : x ∈ l := by
  have h1 : x ∈ l.eraseIdx i := (swapRemoveIdx_perm l i hi).mem_iff.1 hx
  exact (List.eraseIdx_sublist l i).mem h1

theorem idxOfKey_some {α β : Type} [DecidableEq α] :
    ∀ {m : List (α × β)} {a : α} {i : ℕ}, idxOfKey m a = some i →
      i < m.length ∧ (keysOf m).get? i = some a := by
  intro m
  induction m with
  | nil => intro a i h; simp [idxOfKey] at h
  | cons kv rest ih =>
    intro a i h
    rcases kv with ⟨k, v⟩
    by_cases hk : k = a
    · simp only [idxOfKey, if_pos hk] at h
      cases h
      simp [keysOf, hk]
    · simp only [idxOfKey, if_neg hk] at h
      cases hj : idxOfKey rest a with
      | none => rw [hj] at h; simp at h
      | some j =>
        rw [hj] at h
        simp only [Option.map_some'] at h
        cases h
        obtain ⟨hlt, hget⟩ := ih hj
        constructor
        · simpa using Nat.succ_lt_succ hlt
        · simpa [keysOf] using hget

theorem idxOfKey_none {α β : Type} [DecidableEq α] :
    ∀ {m : List (α × β)} {a : α}, idxOfKey m a = none ↔ a ∉ keysOf m := by
  intro m
  induction m with
  | nil => intro a; simp [idxOfKey, keysOf]
  | cons kv rest ih =>
    intro a
    rcases kv with ⟨k, v⟩
    by_cases hk : k = a
    · simp [idxOfKey, hk, keysOf]
    · simp only [idxOfKey, if_neg hk, Option.map_eq_none', keysOf_cons, List.mem_cons]
      rw [ih]
      constructor
      · rintro hn (he | hm)
        · exact hk he.symm
        · exact hn hm
      · intro hn hm
        exact hn (Or.inr hm)

theorem idxOfKey_isSome_of_mem {α β : Type} [DecidableEq α] {m : List (α × β)} {a : α}
    (h : a ∈ keysOf m) : ∃ i, idxOfKey m a = some i := by
  cases hx : idxOfKey m a with
  | none => exact absurd h (idxOfKey_none.1 hx)
  | some i => exact ⟨i, rfl⟩

theorem mem_swapRemoveKey {α β : Type} [DecidableEq α] {m : List (α × β)} {a : α}
    {kv : α × β} (h : kv ∈ swapRemoveKey m a) : kv ∈ m := by
  unfold swapRemoveKey at h
  cases hx : idxOfKey m a with
  | none => rw [hx] at h; exact h
  | some i =>
    rw [hx] at h
    exact mem_swapRemoveIdx (idxOfKey_some hx).1 h

theorem keysOf_set {α β : Type} :
    ∀ (m : List (α × β)) (i : ℕ) (kv : α × β),
      keysOf (m.set i kv) = (keysOf m).set i kv.1 := by
  intro m
  induction m with
  | nil => intro i kv; simp [keysOf]
  | cons x xs ih =>
    intro i kv
    cases i with
    | zero => simp [keysOf, List.set]
    | succ i => simp [keysOf, List.set, ih]

theorem keysOf_dropLast {α β : Type} (m : List (α × β)) :
    keysOf m.dropLast = (keysOf m).dropLast := by
  simp [keysOf, List.map_dropLast]

theorem getLast?_keysOf {α β : Type} :
    ∀ (m : List (α × β)), (keysOf m).getLast? = m.getLast?.map Prod.fst := by
  intro m
  induction m with
  | nil => simp [keysOf]
  | cons x xs ih =>
    cases xs with
    | nil => simp [keysOf]
    | cons y ys =>
      rw [keysOf_cons, keysOf_cons, List.getLast?_cons_cons, List.getLast?_cons_cons,
        ← keysOf_cons]
      exact ih

theorem keysOf_swapRemoveIdx {α β : Type} (m : List (α × β)) (i : ℕ) :
    keysOf (swapRemoveIdx m i) = swapRemoveIdx (keysOf m) i := by
  unfold swapRemoveIdx
  cases hx : m.getLast? with
  | none =>
    have hm : m = [] := by
      cases m with
      | nil => rfl
      | cons a as =>
        rw [List.getLast?_eq_getLast (a :: as) (by simp)] at hx
        exact Option.noConfusion hx
    subst hm
    simp [keysOf]
  | some x =>
    have hk : (keysOf m).getLast? = some x.1 := by
      rw [getLast?_keysOf, hx, Option.map_some']
    rw [hk]
    show keysOf ((m.set i x).dropLast) = ((keysOf m).set i x.1).dropLast
    rw [keysOf_dropLast, keysOf_set]

theorem nodup_keysOf_swapRemoveKey {α β : Type} [DecidableEq α] {m : List (α × β)} {a : α}
    (h : (keysOf m).Nodup) : (keysOf (swapRemoveKey m a)).Nodup := by
  unfold swapRemoveKey
  cases hx : idxOfKey m a with
  | none => exact h
  | some i =>
    have hi : i < m.length := (idxOfKey_some hx).1
    have hki : i < (keysOf m).length := by simpa [keysOf] using hi
    have hperm : (keysOf (swapRemoveIdx m i)).Perm ((keysOf m).eraseIdx i) := by
      rw [keysOf_swapRemoveIdx]
      exact swapRemoveIdx_perm (keysOf m) i hki
    exact hperm.nodup_iff.2 ((List.eraseIdx_sublist (keysOf m) i).nodup h)

theorem not_mem_eraseIdx_of_nodup {α : Type} :
    ∀ (l : List α) (i : ℕ) (a : α), l.Nodup → l.get? i = some a → a ∉ l.eraseIdx i := by
  intro l
  induction l with
  | nil => intro i a _ h; simp [List.get?] at h
  | cons x xs ih =>
    intro i a hnd hget
    cases i with
    | zero =>
      simp only [List.get?] at hget
      cases hget
      simp only [List.eraseIdx]
      exact (List.nodup_cons.1 hnd).1
    | succ i =>
      simp only [List.get?] at hget
      have hmem : a ∈ xs := List.get?_mem hget
      have hax : a ≠ x := by
        intro he
        exact (List.nodup_cons.1 hnd).1 (he ▸ hmem)
      simp only [List.eraseIdx, List.mem_cons]
      rintro (he | hm)
      · exact hax he
      · exact ih i a (List.nodup_cons.1 hnd).2 hget hm

theorem mem_eraseIdx_of_mem_ne {α : Type} :
    ∀ (l : List α) (i : ℕ) (a x : α), l.get? i = some a → x ∈ l → x ≠ a →
      x ∈ l.eraseIdx i := by
  intro l
  induction l with
  | nil => intro i a x h; simp [List.get?] at h
  | cons y ys ih =>
    intro i a x hget hx hne
    cases i with
    | zero =>
      simp only [List.get?] at hget
      cases hget
      simp only [List.eraseIdx]
      rcases List.mem_cons.1 hx with he | hm
      · exact absurd he hne
      · exact hm
    | succ i =>
      simp only [List.get?] at hget
      simp only [List.eraseIdx, List.mem_cons]
      rcases List.mem_cons.1 hx with he | hm
      · exact Or.inl he
      · exact Or.inr (ih i a x hget hm hne)

theorem not_mem_keysOf_swapRemoveKey {α β : Type} [DecidableEq α] {m : List (α × β)}
    {a : α} (hnd : (keysOf m).Nodup) : a ∉ keysOf (swapRemoveKey m a) := by
  unfold swapRemoveKey
  cases hx : idxOfKey m a with
  | none => exact idxOfKey_none.1 hx
  | some i =>
    obtain ⟨hi, hget⟩ := idxOfKey_some hx
    have hki : i < (keysOf m).length := by simpa [keysOf] using hi
    rw [keysOf_swapRemoveIdx]
    intro hmem
    have h1 : a ∈ (keysOf m).eraseIdx i :=
      (swapRemoveIdx_perm (keysOf m) i hki).mem_iff.1 hmem
    exact not_mem_eraseIdx_of_nodup (keysOf m) i a hnd hget h1

theorem mem_keysOf_swapRemoveKey_of_ne {α β : Type} [DecidableEq α] {m : List (α × β)}
    {a x : α} (hx : x ∈ keysOf m) (hne : x ≠ a) : x ∈ keysOf (swapRemoveKey m a) := by
  unfold swapRemoveKey
  cases hr : idxOfKey m a with
  | none => exact hx
  | some i =>
    obtain ⟨hi, hget⟩ := idxOfKey_some hr
    have hki : i < (keysOf m).length := by simpa [keysOf] using hi
    rw [keysOf_swapRemoveIdx]
    exact (swapRemoveIdx_perm (keysOf m) i hki).mem_iff.2
      (mem_eraseIdx_of_mem_ne (keysOf m) i a x hget hx hne)

theorem idxOfKey_of_get? {α β : Type} [DecidableEq α] :
    ∀ (m : List (α × β)) (i : ℕ) (kv : α × β), (keysOf m).Nodup → m.get? i = some kv →
      idxOfKey m kv.1 = some i := by
  intro m
  induction m with
  | nil => intro i kv _ h; simp [List.get?] at h
  | cons x xs ih =>
    intro i kv hnd hget
    rcases x with ⟨k, v⟩
    rw [keysOf_cons, List.nodup_cons] at hnd
    cases i with
    | zero =>
      simp only [List.get?] at hget
      cases hget
      simp [idxOfKey]
    | succ i =>
      simp only [List.get?] at hget
      have hmem : kv ∈ xs := List.get?_mem hget
      have hk : ¬ k = kv.1 := by
        intro he
        exact hnd.1 (he ▸ List.mem_map.2 ⟨kv, hmem, rfl⟩)
      simp only [idxOfKey, if_neg hk, ih i kv hnd.2 hget, Option.map_some']

theorem swapRemoveIdx_get?_self {γ : Type} (l : List γ) (i : ℕ) (h : i + 2 ≤ l.length) :
    (swapRemoveIdx l i).get? i = l.getLast? := by
  have hne : l ≠ [] := by
    intro he
    rw [he] at h
    simp at h
  have hlast : l.getLast? = some (l.getLast hne) := List.getLast?_eq_getLast _ hne
  unfold swapRemoveIdx
  rw [List.get?_eq_getElem?, hlast]
  show ((l.set i (l.getLast hne)).dropLast)[i]? = some (l.getLast hne)
  rw [List.dropLast_eq_take, List.length_set]
  rw [List.getElem?_take_of_lt (by omega)]
  rw [List.getElem?_set_eq_of_lt _ (by omega)]

theorem eraseIdx_get?_self {γ : Type} (l : List γ) (i : ℕ) (h : i ≤ l.length) :
    (l.eraseIdx i).get? i = l.get? (i + 1) := by
  rw [List.eraseIdx_eq_take_drop_succ]
  have htake : (List.take i l).length = i := by
    rw [List.length_take]
    omega
  rw [List.get?_eq_getElem?, List.getElem?_append_right (by omega), htake]
  rw [List.getElem?_drop]
  rw [List.get?_eq_getElem?]
  congr 1
  omega

theorem swapRemoveIdx_ne_eraseIdx {γ : Type} (l : List γ) (i : ℕ) (hnd : l.Nodup)
    (h : i + 2 < l.length) : swapRemoveIdx l i ≠ l.eraseIdx i := by
  intro heq
  have h1 : (swapRemoveIdx l i).get? i = l.getLast? :=
    swapRemoveIdx_get?_self l i (by omega)
  have h2 : (l.eraseIdx i).get? i = l.get? (i + 1) := eraseIdx_get?_self l i (by omega)
  rw [heq, h2] at h1
  have hlt1 : i + 1 < l.length := by omega
  have hlt2 : l.length - 1 < l.length := by omega
  rw [List.get?_eq_get hlt1, List.getLast?_eq_getElem? l, ← List.get?_eq_getElem?,
    List.get?_eq_get hlt2] at h1
  have hfin : (⟨i + 1, hlt1⟩ : Fin l.length) = ⟨l.length - 1, hlt2⟩ :=
    List.nodup_iff_injective_get.1 hnd (Option.some.inj h1)
  have : i + 1 = l.length - 1 := congrArg Fin.val hfin
  omega

/-- C10 (amended): `mutate_del_neuron` removes the targeted neuron by
swap-removal — the key sequence afterwards is `swapRemoveIdx` at the picked
index, so when at least one neuron follows the deleted one the neuron that
was last in iteration order now sits at the deleted position; the iteration
order differs from the relative insertion order of the remaining neurons
whenever at least two neurons follow the deleted one (deleting the
second-to-last neuron moves the last into its slot, which preserves the
relative order).  Connection removal in `mutate_del_conn` uses the same
swap-removal. -/
theorem mutate_del_neuron_swap_removal (p : NeatParams) (r : ℕ) (g : NeuralNetwork)
    (hnd : (keysOf g.neurons).Nodup)
    (hlen : p.n_inputs + p.n_outputs < g.neurons.length)
    (idx : ℕ)
    (hidx : idx = r % (g.neurons.length - (p.n_inputs + p.n_outputs))
        + (p.n_inputs + p.n_outputs)) :
    keysOf (mutate_del_neuron p r g).neurons = swapRemoveIdx (keysOf g.neurons) idx
    ∧ (idx + 2 ≤ g.neurons.length →
        (keysOf (mutate_del_neuron p r g).neurons).get? idx = (keysOf g.neurons).getLast?)
    ∧ (idx + 2 < g.neurons.length →
        keysOf (mutate_del_neuron p r g).neurons ≠ (keysOf g.neurons).eraseIdx idx)
    ∧ (∀ (g2 : NeuralNetwork) (rc : ℕ), (keysOf g2.connections).Nodup →
        0 < g2.connections.length →
        keysOf (mutate_del_conn rc g2).connections
          = swapRemoveIdx (keysOf g2.connections) (rc % g2.connections.length)) := by
  have hsl : ¬ g.neurons.length ≤ p.n_inputs + p.n_outputs := not_le.2 hlen
  have hmod : r % (g.neurons.length - (p.n_inputs + p.n_outputs))
      < g.neurons.length - (p.n_inputs + p.n_outputs) :=
    Nat.mod_lt _ (by omega)
  have hidxlt : idx < g.neurons.length := by omega
  have hget : g.neurons.get? idx = some (g.neurons.get ⟨idx, hidxlt⟩) :=
    List.get?_eq_get hidxlt
  have hneur : (mutate_del_neuron p r g).neurons
      = swapRemoveKey g.neurons (g.neurons.get ⟨idx, hidxlt⟩).1 := by
    unfold mutate_del_neuron
    rw [if_neg hsl, ← hidx, hget]
  have hio : idxOfKey g.neurons (g.neurons.get ⟨idx, hidxlt⟩).1 = some idx :=
    idxOfKey_of_get? g.neurons idx _ hnd hget
  have hswap : (mutate_del_neuron p r g).neurons = swapRemoveIdx g.neurons idx := by
    rw [hneur]
    unfold swapRemoveKey
    rw [hio]
  have hkeys : keysOf (mutate_del_neuron p r g).neurons
      = swapRemoveIdx (keysOf g.neurons) idx := by
    rw [hswap, keysOf_swapRemoveIdx]
  have hklen : (keysOf g.neurons).length = g.neurons.length := by simp [keysOf]
  refine ⟨hkeys, ?_, ?_, ?_⟩
  · intro h2
    rw [hkeys]
    exact swapRemoveIdx_get?_self (keysOf g.neurons) idx (by omega)
  · intro h2
    rw [hkeys]
    exact swapRemoveIdx_ne_eraseIdx (keysOf g.neurons) idx hnd (by omega)
  · intro g2 rc hnd2 hpos
    have hm : rc % g2.connections.length < g2.connections.length := Nat.mod_lt _ hpos
    have hget2 : g2.connections.get? (rc % g2.connections.length)
        = some (g2.connections.get ⟨rc % g2.connections.length, hm⟩) :=
      List.get?_eq_get hm
    have hrk : get_random_key rc g2.connections
        = some (g2.connections.get ⟨rc % g2.connections.length, hm⟩).1 := by
      unfold get_random_key
      rw [hget2, Option.map_some']
    have hio2 : idxOfKey g2.connections
        (g2.connections.get ⟨rc % g2.connections.length, hm⟩).1
        = some (rc % g2.connections.length) :=
      idxOfKey_of_get? g2.connections _ _ hnd2 hget2
    have hconn : (mutate_del_conn rc g2).connections
        = swapRemoveIdx g2.connections (rc % g2.connections.length) := by
      unfold mutate_del_conn
      rw [if_pos hpos, hrk]
      show swapRemoveKey g2.connections _ = _
      unfold swapRemoveKey
      rw [hio2]
    rw [hconn, keysOf_swapRemoveIdx]

theorem mutate_del_neuron_order_preserved_counterexample :
    (0 % (exThree.neurons.length - (pC10.n_inputs + pC10.n_outputs))
        + (pC10.n_inputs + pC10.n_outputs)) = 1
    ∧ (1 : ℕ) ≠ exThree.neurons.length - 1
    ∧ keysOf (mutate_del_neuron pC10 0 exThree).neurons
        = (keysOf exThree.neurons).eraseIdx 1 := by
  refine ⟨by decide, by decide, ?_⟩
  decide

theorem mutate_del_neuron_swap_removal_witness :
    ((keysOf exFour.neurons).Nodup
      ∧ pC10.n_inputs + pC10.n_outputs < exFour.neurons.length
      ∧ (1 : ℕ) = 0 % (exFour.neurons.length - (pC10.n_inputs + pC10.n_outputs))
          + (pC10.n_inputs + pC10.n_outputs))
    ∧ (keysOf (mutate_del_neuron pC10 0 exFour).neurons
          = swapRemoveIdx (keysOf exFour.neurons) 1
      ∧ (1 + 2 ≤ exFour.neurons.length →
          (keysOf (mutate_del_neuron pC10 0 exFour).neurons).get? 1
            = (keysOf exFour.neurons).getLast?)
      ∧ (1 + 2 < exFour.neurons.length →
          keysOf (mutate_del_neuron pC10 0 exFour).neurons
            ≠ (keysOf exFour.neurons).eraseIdx 1)
      ∧ (∀ (g2 : NeuralNetwork) (rc : ℕ), (keysOf g2.connections).Nodup →
          0 < g2.connections.length →
          keysOf (mutate_del_conn rc g2).connections
            = swapRemoveIdx (keysOf g2.connections) (rc % g2.connections.length))) :=
  ⟨⟨by decide, by decide, by decide⟩,
    mutate_del_neuron_swap_removal pC10 0 exFour (by decide) (by decide) 1 (by decide)⟩

theorem mem_keysOf_iff {α β : Type} {m : List (α × β)} {a : α} :
    a ∈ keysOf m ↔ ∃ b, (a, b) ∈ m := by
  constructor
  · intro h
    obtain ⟨kv, hkv, he⟩ := List.mem_map.1 h
    exact ⟨kv.2, by rwa [show (a, kv.2) = kv from by rw [← he]]⟩
  · rintro ⟨b, hb⟩
    exact List.mem_map.2 ⟨(a, b), hb, rfl⟩

theorem getVal_mem {α β : Type} [DecidableEq α] :
    ∀ {m : List (α × β)} {a : α} {v : β}, getVal m a = some v → (a, v) ∈ m := by
  intro m
  induction m with
  | nil => intro a v h; simp [getVal] at h
  | cons kv rest ih =>
    intro a v h
    rcases kv with ⟨k, w⟩
    by_cases hk : k = a
    · simp only [getVal, if_pos hk] at h
      cases h
      simp [hk]
    · simp only [getVal, if_neg hk] at h
      simp [ih h]

theorem setWeightAt_entries (m : List (ConnectionId × ConnectionGene))
    (key : ConnectionId) (w : ℚ) :
    ∀ kv ∈ setWeightAt m key w, ∃ kv0 ∈ m, kv.1 = kv0.1
      ∧ kv.2.in_neuron = kv0.2.in_neuron ∧ kv.2.out_neuron = kv0.2.out_neuron := by
  induction m with
  | nil => intro kv h; simp [setWeightAt] at h
  | cons x rest ih =>
    intro kv h
    rcases x with ⟨k, c⟩
    by_cases hk : k = key
    · simp only [setWeightAt, if_pos hk, List.mem_cons] at h
      rcases h with he | hm
      · exact ⟨(k, c), by simp, by rw [he], by rw [he], by rw [he]⟩
      · exact ⟨kv, by simp [hm], rfl, rfl, rfl⟩
    · simp only [setWeightAt, if_neg hk, List.mem_cons] at h
      rcases h with he | hm
      · exact ⟨(k, c), by simp, by rw [he], by rw [he], by rw [he]⟩
      · obtain ⟨kv0, hkv0, h1, h2, h3⟩ := ih kv hm
        exact ⟨kv0, by simp [hkv0], h1, h2, h3⟩

theorem add_connection_char (g : NeuralNetwork) (a b : ℕ) (w : ℚ)
    (ha : a ∈ keysOf g.neurons) (hb : b ∈ keysOf g.neurons) :
    ∃ g', add_connection g a b w = some g'
      ∧ g'.neurons = g.neurons
      ∧ (∀ kv ∈ g'.connections,
          (∃ kv0 ∈ g.connections, kv.1 = kv0.1
            ∧ kv.2.in_neuron = kv0.2.in_neuron ∧ kv.2.out_neuron = kv0.2.out_neuron)
          ∨ (kv.1 = (a, b) ∧ kv.2.in_neuron = a ∧ kv.2.out_neuron = b))
      ∧ (keysOf g'.connections = keysOf g.connections
          ∨ ((a, b) ∉ keysOf g.connections
            ∧ keysOf g'.connections = keysOf g.connections ++ [(a, b)])) := by
  have hne : g.neurons.length ≠ 0 := by
    intro h0
    rw [List.length_eq_zero] at h0
    rw [h0] at ha
    simp [keysOf] at ha
  by_cases hab : (a, b) ∈ keysOf g.connections
  · refine ⟨{ g with connections := setWeightAt g.connections (a, b) w }, ?_, rfl, ?_, ?_⟩
    · simp [add_connection, hne, ha, hb, hab]
    · intro kv hkv
      exact Or.inl (setWeightAt_entries g.connections (a, b) w kv hkv)
    · exact Or.inl (keysOf_setWeightAt _ _ _)
  · refine ⟨{ g with connections := g.connections ++ [((a, b), ⟨a, b, w⟩)] }, ?_, rfl, ?_, ?_⟩
    · simp [add_connection, hne, ha, hb, hab]
    · intro kv hkv
      rcases List.mem_append.1 hkv with hm | hm
      · exact Or.inl ⟨kv, hm, rfl, rfl, rfl⟩
      · simp only [List.mem_singleton] at hm
        subst hm
        exact Or.inr ⟨rfl, rfl, rfl⟩
    · refine Or.inr ⟨hab, ?_⟩
      simp [keysOf]

theorem mem_keysOf_insertIM_self {α β : Type} [DecidableEq α] (m : List (α × β))
    (a : α) (b : β) : a ∈ keysOf (insertIM m a b) := by
  induction m with
  | nil => simp [insertIM, keysOf]
  | cons kv rest ih =>
    rcases kv with ⟨k, v⟩
    by_cases hk : k = a
    · simp [insertIM, hk, keysOf]
    · simp only [insertIM, if_neg hk, keysOf_cons, List.mem_cons]
      exact Or.inr ih

theorem mem_keysOf_insertIM_of_mem {α β : Type} [DecidableEq α] {m : List (α × β)}
    {x a : α} (b : β) (h : x ∈ keysOf m) : x ∈ keysOf (insertIM m a b) := by
  induction m with
  | nil => simp [keysOf] at h
  | cons kv rest ih =>
    rcases kv with ⟨k, v⟩
    rw [keysOf_cons, List.mem_cons] at h
    by_cases hk : k = a
    · simp only [insertIM, if_pos hk, keysOf_cons, List.mem_cons]
      exact h
    · simp only [insertIM, if_neg hk, keysOf_cons, List.mem_cons]
      rcases h with he | hm
      · exact Or.inl he
      · exact Or.inr (ih hm)

theorem keysOf_insertIM_mem {α β : Type} [DecidableEq α] {m : List (α × β)} {a : α}
    (b : β) (h : a ∈ keysOf m) : keysOf (insertIM m a b) = keysOf m := by
  induction m with
  | nil => simp [keysOf] at h
  | cons kv rest ih =>
    rcases kv with ⟨k, v⟩
    by_cases hk : k = a
    · simp [insertIM, hk, keysOf]
    · rw [keysOf_cons, List.mem_cons] at h
      rcases h with he | hm
      · exact absurd he.symm hk
      · simp only [insertIM, if_neg hk, keysOf_cons, ih hm]

theorem keysOf_insertIM_cases {α β : Type} [DecidableEq α] (m : List (α × β)) (a : α)
    (b : β) :
    keysOf (insertIM m a b) = keysOf m
      ∨ (a ∉ keysOf m ∧ keysOf (insertIM m a b) = keysOf m ++ [a]) := by
  by_cases h : a ∈ keysOf m
  · exact Or.inl (keysOf_insertIM_mem b h)
  · refine Or.inr ⟨h, ?_⟩
    rw [insertIM_fresh b h]
    simp [keysOf]

theorem nodup_keysOf_insertIM {α β : Type} [DecidableEq α] {m : List (α × β)} {a : α}
    (b : β) (h : (keysOf m).Nodup) : (keysOf (insertIM m a b)).Nodup := by
  rcases keysOf_insertIM_cases m a b with he | ⟨hn, he⟩
  · rwa [he]
  · rw [he, List.nodup_append]
    refine ⟨h, List.nodup_singleton a, ?_⟩
    intro x hx hx'
    simp only [List.mem_singleton] at hx'
    subst hx'
    exact hn hx

theorem get?_keysOf_insertIM {α β : Type} [DecidableEq α] {m : List (α × β)} {a : α}
    (b : β) {k : ℕ} (hk : k < (keysOf m).length) :
    (keysOf (insertIM m a b)).get? k = (keysOf m).get? k := by
  rcases keysOf_insertIM_cases m a b with he | ⟨_, he⟩
  · rw [he]
  · rw [he, List.get?_eq_getElem?, List.get?_eq_getElem?, List.getElem?_append,
      if_pos hk]

theorem get_random_key_mem {α β : Type} (r : ℕ) (m : List (α × β)) (h : m.length ≠ 0) :
    ∃ kv : α × β, m.get? (r % m.length) = some kv ∧ get_random_key r m = some kv.1
      ∧ kv ∈ m := by
  have hpos : 0 < m.length := Nat.pos_of_ne_zero h
  have hm : r % m.length < m.length := Nat.mod_lt _ hpos
  refine ⟨m.get ⟨r % m.length, hm⟩, List.get?_eq_get hm, ?_, List.get_mem m _ hm⟩
  unfold get_random_key
  rw [List.get?_eq_get hm, Option.map_some']

theorem add_connection_mutinv (s : ℕ) (g : NeuralNetwork) (a b : ℕ) (w : ℚ)
    (hInv : MutInv s g) (ha : a ∈ keysOf g.neurons) (hb : b ∈ keysOf g.neurons) :
    ∃ g', add_connection g a b w = some g' ∧ MutInv s g' ∧ g'.neurons = g.neurons := by
  obtain ⟨hint, hndn, hndc, hsac, hkg⟩ := hInv
  obtain ⟨g', heq, hneu, hent, hkeys⟩ := add_connection_char g a b w ha hb
  refine ⟨g', heq, ⟨?_, ?_, ?_, ?_, ?_⟩, hneu⟩
  · intro kv hkv
    rw [hneu]
    rcases hent kv hkv with ⟨kv0, hkv0, _, hin, hout⟩ | ⟨_, hin, hout⟩
    · rw [hin, hout]
      exact hint kv0 hkv0
    · rw [hin, hout]
      exact ⟨ha, hb⟩
  · rw [hneu]
    exact hndn
  · rcases hkeys with he | ⟨hnm, he⟩
    · rwa [he]
    · rw [he, List.nodup_append]
      refine ⟨hndc, List.nodup_singleton _, ?_⟩
      intro x hx hx'
      simp only [List.mem_singleton] at hx'
      subst hx'
      exact hnm hx
  · intro k hk
    rw [hneu]
    exact hsac k hk
  · intro kv hkv
    rcases hent kv hkv with ⟨kv0, hkv0, hk, hin, hout⟩ | ⟨hk, hin, hout⟩
    · rw [hk, hkg kv0 hkv0]
      simp [ConnectionGene.cid, hin, hout]
    · rw [hk]
      simp [ConnectionGene.cid, hin, hout]

theorem add_connection_integrity_only (g : NeuralNetwork) (a b : ℕ) (w : ℚ)
    (hint : integrity g) (ha : a ∈ keysOf g.neurons) (hb : b ∈ keysOf g.neurons) :
    ∃ g', add_connection g a b w = some g' ∧ integrity g' ∧ g'.neurons = g.neurons := by
  obtain ⟨g', heq, hneu, hent, _⟩ := add_connection_char g a b w ha hb
  refine ⟨g', heq, ?_, hneu⟩
  intro kv hkv
  rw [hneu]
  rcases hent kv hkv with ⟨kv0, hkv0, _, hin, hout⟩ | ⟨_, hin, hout⟩
  · rw [hin, hout]
    exact hint kv0 hkv0
  · rw [hin, hout]
    exact ⟨ha, hb⟩

theorem mutate_add_connection_mutinv (s : ℕ) (o : MutOracle) (g : NeuralNetwork)
    (hInv : MutInv s g) :
    ∃ g', mutate_add_connection o g = some g' ∧ MutInv s g' ∧ g'.neurons = g.neurons := by
  by_cases h0 : g.neurons.length = 0
  · exact ⟨g, by simp [mutate_add_connection, h0], hInv, rfl⟩
  · obtain ⟨kvi, _, hrki, hmi⟩ := get_random_key_mem o.addConnInR g.neurons h0
    obtain ⟨kvo, _, hrko, hmo⟩ := get_random_key_mem o.addConnOutR g.neurons h0
    have hai : kvi.1 ∈ keysOf g.neurons := List.mem_map.2 ⟨kvi, hmi, rfl⟩
    have hao : kvo.1 ∈ keysOf g.neurons := List.mem_map.2 ⟨kvo, hmo, rfl⟩
    obtain ⟨g', heq, hInv', hneu⟩ := add_connection_mutinv s g kvi.1 kvo.1 0 hInv hai hao
    refine ⟨g', ?_, hInv', hneu⟩
    simp only [mutate_add_connection, if_neg h0, hrki, hrko]
    exact heq

theorem mutate_add_connection_integrity_only (o : MutOracle) (g : NeuralNetwork)
    (hint : integrity g) :
    ∃ g', mutate_add_connection o g = some g' ∧ integrity g' ∧ g'.neurons = g.neurons := by
  by_cases h0 : g.neurons.length = 0
  · exact ⟨g, by simp [mutate_add_connection, h0], hint, rfl⟩
  · obtain ⟨kvi, _, hrki, hmi⟩ := get_random_key_mem o.addConnInR g.neurons h0
    obtain ⟨kvo, _, hrko, hmo⟩ := get_random_key_mem o.addConnOutR g.neurons h0
    have hai : kvi.1 ∈ keysOf g.neurons := List.mem_map.2 ⟨kvi, hmi, rfl⟩
    have hao : kvo.1 ∈ keysOf g.neurons := List.mem_map.2 ⟨kvo, hmo, rfl⟩
    obtain ⟨g', heq, hint', hneu⟩ := add_connection_integrity_only g kvi.1 kvo.1 0 hint hai hao
    refine ⟨g', ?_, hint', hneu⟩
    simp only [mutate_add_connection, if_neg h0, hrki, hrko]
    exact heq

theorem sacredAt_of_neurons_insertIM (s : ℕ) (g : NeuralNetwork) (innov : ℕ)
    (ng : NeuronGene) (hsac : sacredAt s g) :
    ∀ k < s, (keysOf (insertIM g.neurons innov ng)).get? k = some k := by
  intro k hk
  have hg := hsac k hk
  have hlt : k < (keysOf g.neurons).length := by
    rw [List.get?_eq_getElem?] at hg
    exact (List.getElem?_eq_some.1 hg).1
  rw [get?_keysOf_insertIM ng hlt]
  exact hg

theorem mutate_add_neuron_mutinv (s innov r : ℕ) (g : NeuralNetwork)
    (hInv : MutInv s g) :
    ∃ g', mutate_add_neuron innov r g = some g' ∧ MutInv s g' := by
  obtain ⟨hint, hndn, hndc, hsac, hkg⟩ := hInv
  by_cases h0 : g.connections.length = 0
  · have hc : g.connections = [] := List.length_eq_zero.1 h0
    refine ⟨{ g with neurons := insertIM g.neurons innov ⟨0, innov⟩ },
      by simp [mutate_add_neuron, h0], ?_, ?_, ?_, ?_, ?_⟩
    · intro kv hkv
      rw [hc] at hkv
      simp at hkv
    · exact nodup_keysOf_insertIM _ hndn
    · exact hndc
    · exact sacredAt_of_neurons_insertIM s g innov _ hsac
    · intro kv hkv
      exact hkg kv hkv
  · obtain ⟨kvc, _, hrkc, hmc⟩ := get_random_key_mem r g.connections h0
    have hkc : kvc.1 ∈ keysOf g.connections := List.mem_map.2 ⟨kvc, hmc, rfl⟩
    obtain ⟨old, hold⟩ := getVal_isSome_of_mem hkc
    have holdmem : (kvc.1, old) ∈ g.connections := getVal_mem hold
    have hends := hint (kvc.1, old) holdmem
    have hInvMid : MutInv s
        { connections := swapRemoveKey g.connections kvc.1,
          neurons := insertIM g.neurons innov ⟨0, innov⟩ } := by
      refine ⟨?_, nodup_keysOf_insertIM _ hndn, nodup_keysOf_swapRemoveKey hndc,
        sacredAt_of_neurons_insertIM s g innov _ hsac, ?_⟩
      · intro kv hkv
        have hm := mem_swapRemoveKey hkv
        obtain ⟨h1, h2⟩ := hint kv hm
        exact ⟨mem_keysOf_insertIM_of_mem _ h1, mem_keysOf_insertIM_of_mem _ h2⟩
      · intro kv hkv
        exact hkg kv (mem_swapRemoveKey hkv)
    have hin3 : old.in_neuron ∈ keysOf (insertIM g.neurons innov (⟨0, innov⟩ : NeuronGene)) :=
      mem_keysOf_insertIM_of_mem _ hends.1
    have hinnov : innov ∈ keysOf (insertIM g.neurons innov (⟨0, innov⟩ : NeuronGene)) :=
      mem_keysOf_insertIM_self g.neurons innov _
    obtain ⟨g3, heq3, hInv3, hneu3⟩ := add_connection_mutinv s
      { connections := swapRemoveKey g.connections kvc.1,
        neurons := insertIM g.neurons innov ⟨0, innov⟩ } old.in_neuron innov 1
      hInvMid hin3 hinnov
    have hinnov3 : innov ∈ keysOf g3.neurons := by
      rw [hneu3]
      exact hinnov
    have hout3 : old.out_neuron ∈ keysOf g3.neurons := by
      rw [hneu3]
      exact mem_keysOf_insertIM_of_mem _ hends.2
    obtain ⟨g4, heq4, hInv4, _⟩ := add_connection_mutinv s g3 innov old.out_neuron
      old.weight hInv3 hinnov3 hout3
    refine ⟨g4, ?_, hInv4⟩
    simp only [mutate_add_neuron, if_neg h0, hrkc, hold, heq3]
    exact heq4

theorem mutate_add_neuron_some (innov r : ℕ) (g : NeuralNetwork) (hint : integrity g) :
    ∃ g', mutate_add_neuron innov r g = some g' := by
  by_cases h0 : g.connections.length = 0
  · exact ⟨{ g with neurons := insertIM g.neurons innov ⟨0, innov⟩ },
      by simp [mutate_add_neuron, h0]⟩
  · obtain ⟨kvc, _, hrkc, hmc⟩ := get_random_key_mem r g.connections h0
    have hkc : kvc.1 ∈ keysOf g.connections := List.mem_map.2 ⟨kvc, hmc, rfl⟩
    obtain ⟨old, hold⟩ := getVal_isSome_of_mem hkc
    have holdmem : (kvc.1, old) ∈ g.connections := getVal_mem hold
    have hends := hint (kvc.1, old) holdmem
    have hintMid : integrity
        { connections := swapRemoveKey g.connections kvc.1,
          neurons := insertIM g.neurons innov ⟨0, innov⟩ } := by
      intro kv hkv
      have hm := mem_swapRemoveKey hkv
      obtain ⟨h1, h2⟩ := hint kv hm
      exact ⟨mem_keysOf_insertIM_of_mem _ h1, mem_keysOf_insertIM_of_mem _ h2⟩
    have hin3 : old.in_neuron ∈ keysOf (insertIM g.neurons innov (⟨0, innov⟩ : NeuronGene)) :=
      mem_keysOf_insertIM_of_mem _ hends.1
    have hinnov : innov ∈ keysOf (insertIM g.neurons innov (⟨0, innov⟩ : NeuronGene)) :=
      mem_keysOf_insertIM_self g.neurons innov _
    obtain ⟨g3, heq3, hint3, hneu3⟩ := add_connection_integrity_only
      { connections := swapRemoveKey g.connections kvc.1,
        neurons := insertIM g.neurons innov ⟨0, innov⟩ } old.in_neuron innov 1
      hintMid hin3 hinnov
    have hinnov3 : innov ∈ keysOf g3.neurons := by
      rw [hneu3]
      exact hinnov
    have hout3 : old.out_neuron ∈ keysOf g3.neurons := by
      rw [hneu3]
      exact mem_keysOf_insertIM_of_mem _ hends.2
    obtain ⟨g4, heq4, _, _⟩ := add_connection_integrity_only g3 innov old.out_neuron
      old.weight hint3 hinnov3 hout3
    refine ⟨g4, ?_⟩
    simp only [mutate_add_neuron, if_neg h0, hrkc, hold, heq3]
    exact heq4

theorem foldl_swapRemoveKey_mem {α β : Type} [DecidableEq α] :
    ∀ (ks : List α) (cs : List (α × β)) (kv : α × β),
      kv ∈ ks.foldl (fun m k => swapRemoveKey m k) cs → kv ∈ cs := by
  intro ks
  induction ks with
  | nil => intro cs kv h; exact h
  | cons k rest ih =>
    intro cs kv h
    exact mem_swapRemoveKey (ih (swapRemoveKey cs k) kv h)

theorem foldl_swapRemoveKey_nodup {α β : Type} [DecidableEq α] :
    ∀ (ks : List α) (cs : List (α × β)), (keysOf cs).Nodup →
      (keysOf (ks.foldl (fun m k => swapRemoveKey m k) cs)).Nodup := by
  intro ks
  induction ks with
  | nil => intro cs h; exact h
  | cons k rest ih =>
    intro cs h
    exact ih (swapRemoveKey cs k) (nodup_keysOf_swapRemoveKey h)

theorem foldl_swapRemoveKey_key_gone {α β : Type} [DecidableEq α] :
    ∀ (ks : List α) (cs : List (α × β)) (k : α), (keysOf cs).Nodup → k ∈ ks →
      k ∉ keysOf (ks.foldl (fun m k => swapRemoveKey m k) cs) := by
  intro ks
  induction ks with
  | nil => intro cs k _ h; simp at h
  | cons k0 rest ih =>
    intro cs k hnd hk
    rcases List.mem_cons.1 hk with he | hm
    · subst he
      intro hmem
      obtain ⟨v, hv⟩ := mem_keysOf_iff.1 hmem
      have hv' : (k, v) ∈ swapRemoveKey cs k :=
        foldl_swapRemoveKey_mem rest (swapRemoveKey cs k) (k, v) hv
      exact not_mem_keysOf_swapRemoveKey hnd (mem_keysOf_iff.2 ⟨v, hv'⟩)
    · exact ih (swapRemoveKey cs k0) k (nodup_keysOf_swapRemoveKey hnd) hm

theorem swapRemoveIdx_get?_of_lt {γ : Type} (l : List γ) (i k : ℕ) (hki : k < i)
    (hkl : k < l.length - 1) : (swapRemoveIdx l i).get? k = l.get? k := by
  have hne : l ≠ [] := by
    intro he
    rw [he] at hkl
    simp at hkl
  have hlast : l.getLast? = some (l.getLast hne) := List.getLast?_eq_getLast _ hne
  unfold swapRemoveIdx
  rw [hlast]
  show ((l.set i (l.getLast hne)).dropLast).get? k = l.get? k
  rw [List.get?_eq_getElem?, List.get?_eq_getElem?, List.dropLast_eq_take, List.length_set]
  rw [List.getElem?_take_of_lt hkl]
  exact List.getElem?_set_ne (Nat.ne_of_gt hki)

theorem mutate_del_conn_mutinv (s : ℕ) (r : ℕ) (g : NeuralNetwork)
    (hInv : MutInv s g) : MutInv s (mutate_del_conn r g) := by
  obtain ⟨hint, hndn, hndc, hsac, hkg⟩ := hInv
  by_cases hpos : 0 < g.connections.length
  · obtain ⟨kv, _, hrk, _⟩ := get_random_key_mem r g.connections (by omega)
    have heq : mutate_del_conn r g
        = { g with connections := swapRemoveKey g.connections kv.1 } := by
      unfold mutate_del_conn
      rw [if_pos hpos, hrk]
    rw [heq]
    exact ⟨fun kc h => hint kc (mem_swapRemoveKey h), hndn,
      nodup_keysOf_swapRemoveKey hndc, hsac, fun kc h => hkg kc (mem_swapRemoveKey h)⟩
  · have heq : mutate_del_conn r g = g := by
      unfold mutate_del_conn
      rw [if_neg hpos]
    rw [heq]
    exact ⟨hint, hndn, hndc, hsac, hkg⟩

theorem mutate_del_neuron_mutinv (p : NeatParams) (r : ℕ) (g : NeuralNetwork)
    (hInv : MutInv (p.n_inputs + p.n_outputs) g) :
    MutInv (p.n_inputs + p.n_outputs) (mutate_del_neuron p r g) := by
  obtain ⟨hint, hndn, hndc, hsac, hkg⟩ := hInv
  by_cases hsl : g.neurons.length ≤ p.n_inputs + p.n_outputs
  · have heq : mutate_del_neuron p r g = g := by
      unfold mutate_del_neuron
      rw [if_pos hsl]
    rw [heq]
    exact ⟨hint, hndn, hndc, hsac, hkg⟩
  · have hlen : p.n_inputs + p.n_outputs < g.neurons.length := not_le.1 hsl
    have hmod : r % (g.neurons.length - (p.n_inputs + p.n_outputs))
        < g.neurons.length - (p.n_inputs + p.n_outputs) := Nat.mod_lt _ (by omega)
    have hidxlt : r % (g.neurons.length - (p.n_inputs + p.n_outputs))
        + (p.n_inputs + p.n_outputs) < g.neurons.length := by omega
    have hget : g.neurons.get? (r % (g.neurons.length - (p.n_inputs + p.n_outputs))
        + (p.n_inputs + p.n_outputs)) = some (g.neurons.get ⟨_, hidxlt⟩) :=
      List.get?_eq_get hidxlt
    have heq : mutate_del_neuron p r g =
        { connections :=
            ((g.connections.filter
                (fun c => c.1.1 == (g.neurons.get ⟨_, hidxlt⟩).1
                  || c.1.2 == (g.neurons.get ⟨_, hidxlt⟩).1)).map Prod.fst).foldl
              (fun cs cid => swapRemoveKey cs cid) g.connections,
          neurons := swapRemoveKey g.neurons (g.neurons.get ⟨_, hidxlt⟩).1 } := by
      unfold mutate_del_neuron
      rw [if_neg hsl, hget]
    have hio : idxOfKey g.neurons (g.neurons.get ⟨_, hidxlt⟩).1
        = some (r % (g.neurons.length - (p.n_inputs + p.n_outputs))
            + (p.n_inputs + p.n_outputs)) :=
      idxOfKey_of_get? g.neurons _ _ hndn hget
    have hswap : swapRemoveKey g.neurons (g.neurons.get ⟨_, hidxlt⟩).1
        = swapRemoveIdx g.neurons (r % (g.neurons.length - (p.n_inputs + p.n_outputs))
            + (p.n_inputs + p.n_outputs)) := by
      unfold swapRemoveKey
      rw [hio]
    rw [heq]
    have hdelid := (g.neurons.get ⟨_, hidxlt⟩).1
    refine ⟨?_, ?_, ?_, ?_, ?_⟩
    · -- integrity: survivors do not touch the deleted id and keep present endpoints
      intro kv hkv
      have hmem : kv ∈ g.connections := foldl_swapRemoveKey_mem _ _ kv hkv
      obtain ⟨h1, h2⟩ := hint kv hmem
      have hkey := hkg kv hmem
      have hkmem : kv.1 ∈ keysOf (((g.connections.filter
          (fun c => c.1.1 == (g.neurons.get ⟨_, hidxlt⟩).1
            || c.1.2 == (g.neurons.get ⟨_, hidxlt⟩).1)).map Prod.fst).foldl
          (fun cs cid => swapRemoveKey cs cid) g.connections) :=
        mem_keysOf_iff.2 ⟨kv.2, hkv⟩
      have hnotouch : ¬ (kv.1.1 = (g.neurons.get ⟨_, hidxlt⟩).1
          ∨ kv.1.2 = (g.neurons.get ⟨_, hidxlt⟩).1) := by
        intro htouch
        have hfil : kv ∈ g.connections.filter
            (fun c => c.1.1 == (g.neurons.get ⟨_, hidxlt⟩).1
              || c.1.2 == (g.neurons.get ⟨_, hidxlt⟩).1) := by
          rw [List.mem_filter]
          refine ⟨hmem, ?_⟩
          rcases htouch with h | h
          · simp [h]
          · simp [h]
        have hrem : kv.1 ∈ (g.connections.filter
            (fun c => c.1.1 == (g.neurons.get ⟨_, hidxlt⟩).1
              || c.1.2 == (g.neurons.get ⟨_, hidxlt⟩).1)).map Prod.fst :=
          List.mem_map.2 ⟨kv, hfil, rfl⟩
        exact foldl_swapRemoveKey_key_gone _ g.connections kv.1 hndc hrem hkmem
      push_neg at hnotouch
      have hin_ne : kv.2.in_neuron ≠ (g.neurons.get ⟨_, hidxlt⟩).1 := by
        intro he
        exact hnotouch.1 (by rw [hkey, ConnectionGene.cid]; exact he)
      have hout_ne : kv.2.out_neuron ≠ (g.neurons.get ⟨_, hidxlt⟩).1 := by
        intro he
        exact hnotouch.2 (by rw [hkey, ConnectionGene.cid]; exact he)
      exact ⟨mem_keysOf_swapRemoveKey_of_ne h1 hin_ne,
        mem_keysOf_swapRemoveKey_of_ne h2 hout_ne⟩
    · exact nodup_keysOf_swapRemoveKey hndn
    · exact foldl_swapRemoveKey_nodup _ g.connections hndc
    · intro k hk
      show (keysOf (swapRemoveKey g.neurons (g.neurons.get ⟨_, hidxlt⟩).1)).get? k = some k
      rw [hswap, keysOf_swapRemoveIdx]
      have hkl : (keysOf g.neurons).length = g.neurons.length := by simp [keysOf]
      rw [swapRemoveIdx_get?_of_lt (keysOf g.neurons) _ k (by omega) (by omega)]
      exact hsac k hk
    · intro kv hkv
      exact hkg kv (foldl_swapRemoveKey_mem _ _ kv hkv)

theorem keysOf_mapIdx_fstPres {α β : Type} :
    ∀ (l : List (α × β)) (f : ℕ → (α × β) → (α × β)),
      (∀ i kv, (f i kv).1 = kv.1) → keysOf (List.mapIdx f l) = keysOf l := by
  intro l
  induction l with
  | nil => intro f _; simp [keysOf]
  | cons kv rest ih =>
    intro f hf
    rw [List.mapIdx_cons]
    simp only [keysOf, List.map_cons]
    rw [hf 0 kv]
    have := ih (fun i => f (i + 1)) (fun i kv => hf (i + 1) kv)
    simp only [keysOf] at this
    rw [this]

theorem keysOf_mutateBiases (o : MutOracle) (ns : List (NeuronId × NeuronGene)) :
    keysOf (mutateBiases o ns) = keysOf ns := by
  unfold mutateBiases
  apply keysOf_mapIdx_fstPres
  intro i kv
  by_cases h1 : o.biasAddCoin i
  · simp [h1]
  · by_cases h2 : o.biasReplCoin i <;> simp [h1, h2]

theorem keysOf_mutateWeights (o : MutOracle) (cs : List (ConnectionId × ConnectionGene)) :
    keysOf (mutateWeights o cs) = keysOf cs := by
  unfold mutateWeights
  apply keysOf_mapIdx_fstPres
  intro i kv
  by_cases h1 : o.weightAddCoin i
  · simp [h1]
  · by_cases h2 : o.weightReplCoin i <;> simp [h1, h2]

theorem mutateWeights_entries (o : MutOracle) (cs : List (ConnectionId × ConnectionGene)) :
    ∀ kv' ∈ mutateWeights o cs, ∃ kv ∈ cs, kv'.1 = kv.1
      ∧ kv'.2.in_neuron = kv.2.in_neuron ∧ kv'.2.out_neuron = kv.2.out_neuron := by
  intro kv' h
  obtain ⟨i, hi, hf⟩ := List.exists_of_mem_mapIdx h
  refine ⟨cs[i], List.getElem_mem hi, ?_⟩
  rw [← hf]
  by_cases h1 : o.weightAddCoin i
  · simp [h1]
  · by_cases h2 : o.weightReplCoin i <;> simp [h1, h2]

theorem value_maps_mutinv (s : ℕ) (o : MutOracle) (g4 : NeuralNetwork)
    (hInv : MutInv s g4) :
    MutInv s { connections := mutateWeights o g4.connections,
               neurons := mutateBiases o g4.neurons } := by
  obtain ⟨hint, hndn, hndc, hsac, hkg⟩ := hInv
  refine ⟨?_, ?_, ?_, ?_, ?_⟩
  · intro kv' hkv'
    obtain ⟨kv, hkv, _, hin, hout⟩ := mutateWeights_entries o g4.connections kv' hkv'
    obtain ⟨h1, h2⟩ := hint kv hkv
    show kv'.2.in_neuron ∈ keysOf (mutateBiases o g4.neurons)
      ∧ kv'.2.out_neuron ∈ keysOf (mutateBiases o g4.neurons)
    rw [keysOf_mutateBiases, hin, hout]
    exact ⟨h1, h2⟩
  · show (keysOf (mutateBiases o g4.neurons)).Nodup
    rw [keysOf_mutateBiases]
    exact hndn
  · show (keysOf (mutateWeights o g4.connections)).Nodup
    rw [keysOf_mutateWeights]
    exact hndc
  · intro k hk
    show (keysOf (mutateBiases o g4.neurons)).get? k = some k
    rw [keysOf_mutateBiases]
    exact hsac k hk
  · intro kv' hkv'
    obtain ⟨kv, hkv, hk, hin, hout⟩ := mutateWeights_entries o g4.connections kv' hkv'
    rw [hk, hkg kv hkv]
    simp [ConnectionGene.cid, hin, hout]

theorem mutateFinish_mutinv (p : NeatParams) (o : MutOracle) (g2 : NeuralNetwork)
    (hInv : MutInv (p.n_inputs + p.n_outputs) g2) :
    MutInv (p.n_inputs + p.n_outputs) (mutateFinish p o g2) := by
  have h3 : MutInv (p.n_inputs + p.n_outputs)
      (if o.delNeuronCoin then mutate_del_neuron p o.delNeuronR g2 else g2) := by
    by_cases h : o.delNeuronCoin
    · rw [if_pos h]
      exact mutate_del_neuron_mutinv p o.delNeuronR g2 hInv
    · rw [if_neg h]
      exact hInv
  have h4 : MutInv (p.n_inputs + p.n_outputs)
      (if o.delConnCoin
        then mutate_del_conn o.delConnR
          (if o.delNeuronCoin then mutate_del_neuron p o.delNeuronR g2 else g2)
        else (if o.delNeuronCoin then mutate_del_neuron p o.delNeuronR g2 else g2)) := by
    by_cases h : o.delConnCoin
    · rw [if_pos h]
      exact mutate_del_conn_mutinv _ o.delConnR _ h3
    · rw [if_neg h]
      exact h3
  exact value_maps_mutinv _ o _ h4

theorem mutate_mutinv (p : NeatParams) (o : MutOracle) (innov : ℕ) (g : NeuralNetwork)
    (gi : NeuralNetwork × ℕ) (hInv : MutInv (p.n_inputs + p.n_outputs) g)
    (h : mutate p o innov g = some gi) :
    MutInv (p.n_inputs + p.n_outputs) gi.1 := by
  unfold mutate at h
  cases hstage1 : (if o.addConnCoin || g.connections.isEmpty
      then mutate_add_connection o g else some g) with
  | none =>
    rw [hstage1] at h
    simp at h
  | some g1 =>
    rw [hstage1] at h
    have hInv1 : MutInv (p.n_inputs + p.n_outputs) g1 := by
      by_cases hcond : (o.addConnCoin || g.connections.isEmpty : Bool)
      · rw [if_pos hcond] at hstage1
        obtain ⟨g1', heq, hInv', _⟩ := mutate_add_connection_mutinv _ o g hInv
        rw [heq] at hstage1
        cases hstage1
        exact hInv'
      · rw [if_neg hcond] at hstage1
        cases hstage1
        exact hInv
    rw [Option.some_bind] at h
    cases hstage2 : (if o.addNeuronCoin
        then (mutate_add_neuron innov o.addNeuronConnR g1).map (fun h => (h, innov + 1))
        else some (g1, innov)) with
    | none =>
      rw [hstage2] at h
      simp at h
    | some gi2 =>
      rw [hstage2] at h
      have hInv2 : MutInv (p.n_inputs + p.n_outputs) gi2.1 := by
        by_cases hcond2 : o.addNeuronCoin
        · rw [if_pos hcond2] at hstage2
          obtain ⟨g2', heq2, hInv2'⟩ := mutate_add_neuron_mutinv _ innov o.addNeuronConnR
            g1 hInv1
          rw [heq2, Option.map_some'] at hstage2
          cases hstage2
          exact hInv2'
        · rw [if_neg hcond2] at hstage2
          cases hstage2
          exact hInv1
      rw [Option.some_bind] at h
      cases h
      exact mutateFinish_mutinv p o gi2.1 hInv2

theorem mutate_isSome_of_integrity (p : NeatParams) (o : MutOracle) (innov : ℕ)
    (g : NeuralNetwork) (hint : integrity g) : (mutate p o innov g).isSome := by
  unfold mutate
  have hg1 : ∃ g1, (if o.addConnCoin || g.connections.isEmpty
      then mutate_add_connection o g else some g) = some g1 ∧ integrity g1 := by
    by_cases hcond : (o.addConnCoin || g.connections.isEmpty : Bool)
    · rw [if_pos hcond]
      obtain ⟨g1, heq, hint1, _⟩ := mutate_add_connection_integrity_only o g hint
      exact ⟨g1, heq, hint1⟩
    · rw [if_neg hcond]
      exact ⟨g, rfl, hint⟩
  obtain ⟨g1, heq1, hint1⟩ := hg1
  rw [heq1, Option.some_bind]
  have hg2 : ∃ gi2, (if o.addNeuronCoin
      then (mutate_add_neuron innov o.addNeuronConnR g1).map (fun h => (h, innov + 1))
      else some (g1, innov)) = some gi2 := by
    by_cases hcond2 : o.addNeuronCoin
    · rw [if_pos hcond2]
      obtain ⟨g2, heq2⟩ := mutate_add_neuron_some innov o.addNeuronConnR g1 hint1
      exact ⟨(g2, innov + 1), by rw [heq2, Option.map_some']⟩
    · rw [if_neg hcond2]
      exact ⟨(g1, innov), rfl⟩
  obtain ⟨gi2, heq2⟩ := hg2
  rw [heq2, Option.some_bind]
  rfl

theorem with_neurons_mutinv (s : ℕ) : MutInv s (with_neurons s) := by
  have hkeys : keysOf (with_neurons s).neurons = List.range s := by
    simp only [with_neurons, keysOf, List.map_map]
    exact List.map_id (List.range s)
  refine ⟨?_, ?_, ?_, ?_, ?_⟩
  · intro kv hkv
    simp [with_neurons] at hkv
  · rw [hkeys]
    exact List.nodup_range s
  · simp [with_neurons, keysOf]
  · intro k hk
    rw [hkeys]
    exact List.get?_range hk
  · intro kv hkv
    simp [with_neurons] at hkv

theorem runMutations_mutinv (s : ℕ) :
    ∀ (seq : List (NeatParams × ℕ × MutOracle)) (g g' : NeuralNetwork),
      (∀ e ∈ seq, e.1.n_inputs + e.1.n_outputs = s) → MutInv s g →
      runMutations g seq = some g' → MutInv s g' := by
  intro seq
  induction seq with
  | nil =>
    intro g g' _ hInv h
    simp only [runMutations] at h
    cases h
    exact hInv
  | cons e rest ih =>
    intro g g' hseq hInv h
    rcases e with ⟨q, innov, o⟩
    simp only [runMutations] at h
    cases hm : mutate q o innov g with
    | none =>
      rw [hm] at h
      simp at h
    | some gi =>
      rw [hm] at h
      have hq : q.n_inputs + q.n_outputs = s := hseq (q, innov, o) (by simp)
      have hInvi : MutInv s gi.1 :=
        hq ▸ mutate_mutinv q o innov g gi (by rw [hq]; exact hInv) hm
      exact ih gi.1 g' (fun e he => hseq e (by simp [he])) hInvi h

/-- C2: for every genome created by `with_neurons(n_inputs + n_outputs)` and
every finite sequence of `mutate` calls — any random outcomes, a fresh
innovation counter each call, parameter records that may vary as long as
`n_inputs` and `n_outputs` stay fixed — the resulting genome satisfies
connection integrity (every connection's `in_neuron` and `out_neuron` are
present neuron ids) and all of the first `n_inputs + n_outputs` neuron ids
are still present. -/
theorem mutate_seq_integrity_and_sacred (p : NeatParams)
    (seq : List (NeatParams × ℕ × MutOracle)) (g' : NeuralNetwork)
    (hseq : ∀ e ∈ seq, e.1.n_inputs + e.1.n_outputs = p.n_inputs + p.n_outputs)
    (h : runMutations (with_neurons (p.n_inputs + p.n_outputs)) seq = some g') :
    integrity g' ∧ ∀ k < p.n_inputs + p.n_outputs, k ∈ keysOf g'.neurons := by
  have hInv := runMutations_mutinv (p.n_inputs + p.n_outputs) seq _ g' hseq
    (with_neurons_mutinv _) h
  obtain ⟨hint, _, _, hsac, _⟩ := hInv
  exact ⟨hint, fun k hk => List.get?_mem (hsac k hk)⟩

theorem mutate_seq_integrity_and_sacred_witness :
    ((∀ e ∈ [(exP, 7, exO)], e.1.n_inputs + e.1.n_outputs = exP.n_inputs + exP.n_outputs)
      ∧ runMutations (with_neurons (exP.n_inputs + exP.n_outputs)) [(exP, 7, exO)]
          = some exMutated)
    ∧ (integrity exMutated
      ∧ ∀ k < exP.n_inputs + exP.n_outputs, k ∈ keysOf exMutated.neurons) :=
  ⟨⟨by decide, by decide⟩,
    mutate_seq_integrity_and_sacred exP [(exP, 7, exO)] exMutated (by decide) (by decide)⟩

/-- C7 (amended): for every genome satisfying connection integrity and
parameters with nonnegative mutation variances, `mutate` never panics for
any random outcome; when a deletion sub-mutation would pick from an empty
collection (no connection to delete, no neuron beyond the sacred count to
delete) it is a guarded no-op, and picking endpoints from an empty neuron
map leaves the genome unchanged — but when there is no connection to split,
`mutate_add_neuron` is not a no-op: it leaves the connection map unchanged
and inserts one fresh neuron with the given innovation id and bias 0. -/
theorem mutate_no_panic_and_guards (p : NeatParams) (o : MutOracle) (innov : ℕ)
    (g : NeuralNetwork) (hint : integrity g)
    (hbv : 0 ≤ p.bias_mutate_var) (hwv : 0 ≤ p.weight_mutate_var) :
    (mutate p o innov g).isSome
    ∧ (g.connections = [] → mutate_del_conn o.delConnR g = g)
    ∧ (g.neurons.length ≤ p.n_inputs + p.n_outputs →
        mutate_del_neuron p o.delNeuronR g = g)
    ∧ (g.neurons = [] → mutate_add_connection o g = some g)
    ∧ (g.connections = [] →
        mutate_add_neuron innov o.addNeuronConnR g
          = some { g with neurons := insertIM g.neurons innov ⟨0, innov⟩ }) := by
  refine ⟨mutate_isSome_of_integrity p o innov g hint, ?_, ?_, ?_, ?_⟩
  · intro hc
    unfold mutate_del_conn
    rw [if_neg (by rw [hc]; simp)]
  · intro hs
    unfold mutate_del_neuron
    rw [if_pos hs]
  · intro hn
    unfold mutate_add_connection
    rw [if_pos (by rw [hn]; rfl)]
  · intro hc
    unfold mutate_add_neuron
    rw [if_pos (by rw [hc]; rfl)]

theorem mutate_add_neuron_not_noop :
    exOne.connections = [] ∧ mutate_add_neuron 5 0 exOne ≠ some exOne
      ∧ (mutate_add_neuron 5 0 exOne).map (fun h => h.neurons.length) = some 2 :=
  ⟨rfl, by decide, by decide⟩

theorem mutate_no_panic_and_guards_witness :
    (integrity exOne ∧ (0 : ℚ) ≤ exP.bias_mutate_var ∧ (0 : ℚ) ≤ exP.weight_mutate_var)
    ∧ ((mutate exP exO 3 exOne).isSome
      ∧ (exOne.connections = [] → mutate_del_conn exO.delConnR exOne = exOne)
      ∧ (exOne.neurons.length ≤ exP.n_inputs + exP.n_outputs →
          mutate_del_neuron exP exO.delNeuronR exOne = exOne)
      ∧ (exOne.neurons = [] → mutate_add_connection exO exOne = some exOne)
      ∧ (exOne.connections = [] →
          mutate_add_neuron 3 exO.addNeuronConnR exOne
            = some { exOne with neurons := insertIM exOne.neurons 3 ⟨0, 3⟩ })) :=
  ⟨⟨by decide, by decide, by decide⟩,
    mutate_no_panic_and_guards exP exO 3 exOne (by decide) (by decide) (by decide)⟩

theorem flatPos_inj {n oi ii oi2 ii2 : ℕ} (hii : ii < n) (hii2 : ii2 < n)
    (h : oi * n + ii = oi2 * n + ii2) : oi = oi2 ∧ ii = ii2 := by
  have hmod : (oi * n + ii) % n = ii % n := by
    rw [Nat.mul_comm oi n]
    exact Nat.mul_add_mod n oi ii
  have hmod2 : (oi2 * n + ii2) % n = ii2 % n := by
    rw [Nat.mul_comm oi2 n]
    exact Nat.mul_add_mod n oi2 ii2
  have hie : ii = ii2 := by
    have := hmod.symm.trans (h ▸ hmod2)
    rwa [Nat.mod_eq_of_lt hii, Nat.mod_eq_of_lt hii2] at this
  subst hie
  have hoe : oi * n = oi2 * n := by omega
  exact ⟨Nat.eq_of_mul_eq_mul_right (by omega) hoe, rfl⟩

theorem idxOfKey_inj {α β : Type} [DecidableEq α] {m : List (α × β)} {a b : α} {i : ℕ}
    (ha : idxOfKey m a = some i) (hb : idxOfKey m b = some i) : a = b := by
  have h1 := (idxOfKey_some ha).2
  have h2 := (idxOfKey_some hb).2
  rw [h1] at h2
  exact Option.some.inj h2

theorem entry_eq_of_key_eq {α β : Type} :
    ∀ {m : List (α × β)} {kv kv' : α × β}, (keysOf m).Nodup → kv ∈ m → kv' ∈ m →
      kv.1 = kv'.1 → kv = kv' := by
  intro m
  induction m with
  | nil => intro kv kv' _ h; simp at h
  | cons x rest ih =>
    intro kv kv' hnd hkv hkv' hk
    rw [keysOf_cons, List.nodup_cons] at hnd
    rcases List.mem_cons.1 hkv with he | hm
    · rcases List.mem_cons.1 hkv' with he' | hm'
      · rw [he, he']
      · exfalso
        apply hnd.1
        have hx : x.1 = kv'.1 := by rw [← he]; exact hk
        rw [hx]
        exact List.mem_map.2 ⟨kv', hm', rfl⟩
    · rcases List.mem_cons.1 hkv' with he' | hm'
      · exfalso
        apply hnd.1
        have hx : x.1 = kv.1 := by rw [← he']; exact hk.symm
        rw [hx]
        exact List.mem_map.2 ⟨kv, hm, rfl⟩
      · exact ih hnd.2 hm hm' hk

theorem get_weightsAux_char (neurons : List (NeuronId × NeuronGene)) (n : ℕ) :
    ∀ (cs : List (ConnectionId × ConnectionGene)) (acc : List ℚ),
      (∀ kv ∈ cs, ∃ oi ii, idxOfKey neurons kv.2.out_neuron = some oi
          ∧ idxOfKey neurons kv.2.in_neuron = some ii ∧ oi * n + ii < acc.length) →
      (∀ kv ∈ cs, ∀ kv' ∈ cs, ∀ p, writesAt neurons n kv p → writesAt neurons n kv' p →
          kv = kv') →
      ∃ res, get_weightsAux neurons n cs acc = some res
        ∧ res.length = acc.length
        ∧ (∀ p, (∀ kv ∈ cs, ¬ writesAt neurons n kv p) → res.get? p = acc.get? p)
        ∧ (∀ kv ∈ cs, ∀ p, writesAt neurons n kv p → res.get? p = some kv.2.weight) := by
  intro cs
  induction cs with
  | nil =>
    intro acc _ _
    exact ⟨acc, rfl, rfl, fun p _ => rfl, fun kv h => by simp at h⟩
  | cons c rest ih =>
    intro acc hidx huniq
    obtain ⟨oi, ii, hoi, hii, hlt⟩ := hidx c (by simp)
    have hacc' : ∀ kv ∈ rest, ∃ oi2 ii2, idxOfKey neurons kv.2.out_neuron = some oi2
        ∧ idxOfKey neurons kv.2.in_neuron = some ii2
        ∧ oi2 * n + ii2 < (acc.set (oi * n + ii) c.2.weight).length := by
      intro kv hkv
      obtain ⟨oi2, ii2, h1, h2, h3⟩ := hidx kv (by simp [hkv])
      exact ⟨oi2, ii2, h1, h2, by rwa [List.length_set]⟩
    have huniq' : ∀ kv ∈ rest, ∀ kv' ∈ rest, ∀ p, writesAt neurons n kv p →
        writesAt neurons n kv' p → kv = kv' :=
      fun kv hkv kv' hkv' p h1 h2 =>
        huniq kv (by simp [hkv]) kv' (by simp [hkv']) p h1 h2
    obtain ⟨res, heq, hlen, huntouched, hwriter⟩ :=
      ih (acc.set (oi * n + ii) c.2.weight) hacc' huniq'
    have hstep : get_weightsAux neurons n (c :: rest) acc = some res := by
      rcases c with ⟨cid, gene⟩
      simp only [get_weightsAux, hoi, hii]
      exact heq
    have hcw : writesAt neurons n c (oi * n + ii) := ⟨oi, ii, hoi, hii, rfl⟩
    refine ⟨res, hstep, by rwa [List.length_set] at hlen, ?_, ?_⟩
    · intro p hp
      have hcp : ¬ writesAt neurons n c p := hp c (by simp)
      have hpne : p ≠ oi * n + ii := fun he => hcp (he ▸ hcw)
      rw [huntouched p (fun kv hkv => hp kv (by simp [hkv]))]
      rw [List.get?_eq_getElem?, List.get?_eq_getElem?]
      exact List.getElem?_set_ne (fun he => hpne he.symm)
    · intro kv hkv p hw
      rcases List.mem_cons.1 hkv with he | hm
      · subst he
        obtain ⟨oi', ii', hoi', hii', hp⟩ := hw
        rw [hoi] at hoi'
        rw [hii] at hii'
        cases hoi'
        cases hii'
        subst hp
        by_cases hrest : ∃ kv' ∈ rest, writesAt neurons n kv' (oi * n + ii)
        · obtain ⟨kv', hkv', hw'⟩ := hrest
          have : kv' = kv := huniq kv' (by simp [hkv']) kv (by simp) _ hw' hcw
          subst this
          exact hwriter kv' hkv' _ hw'
        · push_neg at hrest
          rw [huntouched _ hrest]
          rw [List.get?_eq_getElem?]
          exact List.getElem?_set_eq_of_lt _ hlt
      · exact hwriter kv hm p hw

/-- C3 (amended): for every genome with connection integrity and well-formed
maps, `make_network` yields a CTRNN with Δt = 1, step count 10, τ = 1 for
every neuron, θ equal to the neuron biases in ascending neuron-id order —
but the weight matrix entry for a connection sits at
(row = out-neuron index, column = in-neuron index) where both indices are
the neurons' positions in the genome's *insertion-ordered* neuron map (as
`get_full` returns them), not in the id-sorted list used for θ; all other
entries are 0. -/
theorem make_network_spec (g : NeuralNetwork)
    (hint : integrity g) (hndc : (keysOf g.connections).Nodup)
    (hndn : (keysOf g.neurons).Nodup)
    (hkg : keyGood ConnectionGene.cid g.connections) :
    ∃ net, make_network g = some net
      ∧ net.delta_t = 1
      ∧ net.steps = 10
      ∧ net.tau = List.replicate g.neurons.length 1
      ∧ (∃ l, l.Perm g.neurons
          ∧ List.Sorted (fun a b : NeuronId × NeuronGene => a.1 ≤ b.1) l
          ∧ net.theta = l.map (fun kv => kv.2.bias))
      ∧ net.wij.length = g.neurons.length * g.neurons.length
      ∧ (∀ kv ∈ g.connections, ∀ p, writesAt g.neurons g.neurons.length kv p →
          net.wij.get? p = some kv.2.weight)
      ∧ (∀ p < g.neurons.length * g.neurons.length,
          (∀ kv ∈ g.connections, ¬ writesAt g.neurons g.neurons.length kv p) →
          net.wij.get? p = some 0) := by
  have hidx : ∀ kv ∈ g.connections, ∃ oi ii,
      idxOfKey g.neurons kv.2.out_neuron = some oi
      ∧ idxOfKey g.neurons kv.2.in_neuron = some ii
      ∧ oi * g.neurons.length + ii
          < (List.replicate (g.neurons.length * g.neurons.length) (0 : ℚ)).length := by
    intro kv hkv
    obtain ⟨h1, h2⟩ := hint kv hkv
    obtain ⟨oi, hoi⟩ := idxOfKey_isSome_of_mem h2
    obtain ⟨ii, hii⟩ := idxOfKey_isSome_of_mem h1
    have hoilt : oi < g.neurons.length := (idxOfKey_some hoi).1
    have hiilt : ii < g.neurons.length := (idxOfKey_some hii).1
    refine ⟨oi, ii, hoi, hii, ?_⟩
    rw [List.length_replicate]
    calc oi * g.neurons.length + ii < oi * g.neurons.length + g.neurons.length := by omega
      _ = (oi + 1) * g.neurons.length := by ring
      _ ≤ g.neurons.length * g.neurons.length :=
          Nat.mul_le_mul_right g.neurons.length (by omega)
  have huniq : ∀ kv ∈ g.connections, ∀ kv' ∈ g.connections, ∀ p,
      writesAt g.neurons g.neurons.length kv p →
      writesAt g.neurons g.neurons.length kv' p → kv = kv' := by
    intro kv hkv kv' hkv' p hw hw'
    obtain ⟨oi, ii, hoi, hii, hp⟩ := hw
    obtain ⟨oi', ii', hoi', hii', hp'⟩ := hw'
    have hiilt : ii < g.neurons.length := (idxOfKey_some hii).1
    have hiilt' : ii' < g.neurons.length := (idxOfKey_some hii').1
    obtain ⟨hoe, hie⟩ := flatPos_inj hiilt hiilt' (hp ▸ hp')
    subst hoe
    subst hie
    have hout : kv.2.out_neuron = kv'.2.out_neuron := idxOfKey_inj hoi hoi'
    have hin : kv.2.in_neuron = kv'.2.in_neuron := idxOfKey_inj hii hii'
    have hkey : kv.1 = kv'.1 := by
      rw [hkg kv hkv, hkg kv' hkv', ConnectionGene.cid, ConnectionGene.cid, hout, hin]
    exact entry_eq_of_key_eq hndc hkv hkv' hkey
  obtain ⟨W, heqW, hlenW, huntouched, hwriter⟩ :=
    get_weightsAux_char g.neurons g.neurons.length g.connections
      (List.replicate (g.neurons.length * g.neurons.length) 0) hidx huniq
  refine ⟨{ theta := (sortKeysIM g.neurons).map (fun kv => kv.2.bias),
            tau := List.replicate g.neurons.length 1,
            wij := W, delta_t := 1, steps := 10 }, ?_, rfl, rfl, rfl, ?_, ?_, ?_, ?_⟩
  · unfold make_network get_weights
    rw [heqW, Option.map_some']
  · exact ⟨sortKeysIM g.neurons, List.perm_insertionSort _ g.neurons,
      List.sorted_insertionSort _ g.neurons, rfl⟩
  · rw [hlenW, List.length_replicate]
  · exact hwriter
  · intro p hp hp2
    rw [huntouched p hp2, List.get?_eq_getElem?, List.getElem?_replicate]
    simp [hp]

theorem make_network_sorted_weights_counterexample :
    integrity exSwapped
    ∧ (make_network exSwapped).map CtrnnNet.wij = some [0, 0, 0, 5]
    ∧ specSortedWeights exSwapped = some [5, 0, 0, 0]
    ∧ (make_network exSwapped).map CtrnnNet.wij ≠ specSortedWeights exSwapped :=
  ⟨by decide, by decide, by decide, by decide⟩

theorem make_network_spec_witness :
    (integrity exA ∧ (keysOf exA.connections).Nodup ∧ (keysOf exA.neurons).Nodup
      ∧ keyGood ConnectionGene.cid exA.connections)
    ∧ (∃ net, make_network exA = some net
      ∧ net.delta_t = 1
      ∧ net.steps = 10
      ∧ net.tau = List.replicate exA.neurons.length 1
      ∧ (∃ l, l.Perm exA.neurons
          ∧ List.Sorted (fun a b : NeuronId × NeuronGene => a.1 ≤ b.1) l
          ∧ net.theta = l.map (fun kv => kv.2.bias))
      ∧ net.wij.length = exA.neurons.length * exA.neurons.length
      ∧ (∀ kv ∈ exA.connections, ∀ p, writesAt exA.neurons exA.neurons.length kv p →
          net.wij.get? p = some kv.2.weight)
      ∧ (∀ p < exA.neurons.length * exA.neurons.length,
          (∀ kv ∈ exA.connections, ¬ writesAt exA.neurons exA.neurons.length kv p) →
          net.wij.get? p = some 0)) :=
  ⟨⟨by decide, by decide, by decide, by decide⟩,
    make_network_spec exA (by decide) (by decide) (by decide) (by decide)⟩
